import Mathlib

/-!
Verification development for the mcl text editor core
(document / selection / transaction / fold / autocomplete model).

The definitions below are a shallow embedding of the C++ sources:
 - `src/mcl_editor/code_editor/TextEditor.cpp`  (Selection, TextDocument,
   fulfill, Transaction, GlyphArrangementArray, TextEditor::insert)
 - `src/mcl_editor/code_editor/TextDocument.h`  (FoldableLineRange::Holder)
 - `src/mcl_editor/code_editor/Autocomplete.h`  (TokenCollection)

Characters are modelled as natural numbers (juce_wchar code points); a
document line is a `List Nat` that contains no newline (code 10); a document
is the list of its lines.  Rows and columns are `Int`, as in the C++ code
(juce::Point<int>), because the selection arithmetic in the source can and
does produce negative coordinates.
-/

namespace mcl

/-- Newline code point. -/
def nl : Nat := 10

/-- Key code inserted for "delete previous character" (juce KeyPress::backspaceKey);
only its distinctness from ordinary text and from `deleteKey` matters. -/
def backspaceKey : Nat := 65544

/-- Key code inserted for "delete next character" (juce KeyPress::deleteKey). -/
def deleteKey : Nat := 65661

/-- A (row, column) index, mirroring the juce::Point<int> use in the source:
`x` is the row, `y` is the column. -/
structure Pos where
  x : Int
  y : Int
deriving DecidableEq, Repr

/-- mcl::Selection: a pair of positions (the style token field is omitted;
no claim concerns it and Selection::operator== ignores positions' style). -/
structure Selection where
  head : Pos
  tail : Pos
deriving DecidableEq, Repr

/-- juce String::getLastCharacter: the last character, or 0 for the empty string. -/
def lastChar (s : List Nat) : Nat := s.getLastD 0

/-- juce String::substring(start): clamps a negative start to 0 and an
overlong start to the length. -/
def substrFrom (s : List Nat) (start : Int) : List Nat := s.drop start.toNat

/-- juce String::substring(start, end): both bounds clamped, empty when
start ≥ end. -/
def substr (s : List Nat) (start stop : Int) : List Nat :=
  (s.take stop.toNat).drop start.toNat

/-- juce String::lastIndexOf("\n"): index of the last newline, or -1. -/
def lastIndexOfNl : List Nat → Int
  | [] => -1
  | c :: cs =>
    let r := lastIndexOfNl cs
    if 0 ≤ r then r + 1 else if c = nl then 0 else -1

/-- Number of newline characters in a string. -/
def countNl (s : List Nat) : Nat := s.count nl

/-- Split a text on newlines, the way juce CodeDocument / StringArray::fromLines
view it: the empty text is one empty line, a trailing newline yields a final
empty line. -/
def splitLines : List Nat → List (List Nat)
  | [] => [[]]
  | c :: cs =>
    let r := splitLines cs
    if c = nl then [] :: r else (c :: r.headD []) :: r.tail

/-- Join lines with single newline separators (inverse of `splitLines`). -/
def joinNl : List (List Nat) → List Nat
  | [] => []
  | [l] => l
  | l :: ls => l ++ nl :: joinNl ls

/-- Replace the first element of a list. -/
def mapHead (f : List Nat → List Nat) : List (List Nat) → List (List Nat)
  | [] => []
  | l :: ls => f l :: ls

/-- Replace the last element of a list. -/
def mapLast (f : List Nat → List Nat) : List (List Nat) → List (List Nat)
  | [] => []
  | [l] => [f l]
  | l :: ls => l :: mapLast f ls

/-- The document content: the list of its lines (strings without newline). -/
abbrev Doc := List (List Nat)

/-- GlyphArrangementArray::operator[]: the line at an index, or the empty
string when the index is out of range. -/
def lineAt (doc : Doc) (r : Int) : List Nat :=
  if r < 0 then [] else doc.getD r.toNat []

/-- TextDocument::getNumRows. -/
def getNumRows (doc : Doc) : Int := doc.length

/-- TextDocument::getNumColumns: the length of lines[row] (the safe accessor
returns the empty string out of range). -/
def getNumColumns (doc : Doc) (r : Int) : Int := (lineAt doc r).length

/-- TextDocument::getEnd: the index one past the end, (numRows, 0). -/
def getEnd (doc : Doc) : Pos := ⟨getNumRows doc, 0⟩

/-- TextDocument::next: advance an index by one character, wrapping to the
next row; the index is unchanged when it cannot advance. -/
def next (doc : Doc) (p : Pos) : Pos :=
  if p.y < getNumColumns doc p.x then ⟨p.x, p.y + 1⟩
  else if p.x < getNumRows doc then ⟨p.x + 1, 0⟩
  else p

/-- TextDocument::prev: move an index back by one character, wrapping to the
end of the previous row; unchanged when it cannot move. -/
def prev (doc : Doc) (p : Pos) : Pos :=
  if 0 < p.y then ⟨p.x, p.y - 1⟩
  else if 0 < p.x then ⟨p.x - 1, getNumColumns doc (p.x - 1)⟩
  else p

/-- TextDocument::getCharacter: 0 for a negative row or column; the newline
character at the end sentinel and at a line's one-past-end column; otherwise
the character of the line.  (The C++ reads lines[x][y]; a read past a line's
terminator is undefined behaviour there and modelled as 0 here; no claim
depends on it.) -/
def getCharacter (doc : Doc) (p : Pos) : Nat :=
  if p.x < 0 ∨ p.y < 0 then 0
  else if p = getEnd doc ∨ p.y = (lineAt doc p.x).length then nl
  else (lineAt doc p.x).getD p.y.toNat 0

namespace Selection

/-- Selection::isOriented: head ≤ tail lexicographically (the source computes
the negation `!(head.x > tail.x || (head.x == tail.x && head.y > tail.y))`). -/
def IsOrientedP (s : Selection) : Prop :=
  s.head.x < s.tail.x ∨ (s.head.x = s.tail.x ∧ s.head.y ≤ s.tail.y)

instance (s : Selection) : Decidable s.IsOrientedP := by
  unfold IsOrientedP; infer_instance

/-- Selection::swapped. -/
def swapped (s : Selection) : Selection := ⟨s.tail, s.head⟩

/-- Selection::oriented. -/
def oriented (s : Selection) : Selection :=
  if s.IsOrientedP then s else s.swapped

/-- Selection::isSingular. -/
def isSingular (s : Selection) : Prop := s.head = s.tail

instance (s : Selection) : Decidable s.isSingular := by
  unfold isSingular; infer_instance

/-- Selection::pull: modify an index to account for the disappearance of this
selection.  Column shift first (it reads only y), then row shift (it reads
only the original x), exactly as in the source. -/
def pull (sel : Selection) (p : Pos) : Pos :=
  let S := sel.oriented
  let y :=
    if S.tail.x = p.x ∧ S.head.y ≤ p.y then
      if S.head.x = S.tail.x then p.y - (S.tail.y - S.head.y) else p.y - S.tail.y
    else p.y
  let x := if S.head.x ≤ p.x then p.x - (S.tail.x - S.head.x) else p.x
  ⟨x, y⟩

/-- Selection::push: modify an index to account for the appearance of this
selection. -/
def push (sel : Selection) (p : Pos) : Pos :=
  let S := sel.oriented
  let y :=
    if S.head.x = p.x ∧ S.head.y ≤ p.y then
      if S.head.x = S.tail.x then p.y + (S.tail.y - S.head.y) else p.y + S.tail.y
    else p.y
  let x := if S.head.x ≤ p.x then p.x + (S.tail.x - S.head.x) else p.x
  ⟨x, y⟩

/-- Selection::pullBy: pull both endpoints. -/
def pullBy (s dis : Selection) : Selection := ⟨dis.pull s.head, dis.pull s.tail⟩

/-- Selection::pushBy: push both endpoints. -/
def pushBy (s app : Selection) : Selection := ⟨app.push s.head, app.push s.tail⟩

/-- Loop body of the Selection(const String&) constructor: walks the content
tracking (rowSpan, index, lastLineStart), returning the final rowSpan and
lastLineStart. -/
def contentSpanAux : List Nat → Int → Int → Int → Int × Int
  | [], rowSpan, _, lastLineStart => (rowSpan, lastLineStart)
  | c :: cs, rowSpan, n, lastLineStart =>
    if c = nl then contentSpanAux cs (rowSpan + 1) (n + 1) (n + 1)
    else contentSpanAux cs rowSpan (n + 1) lastLineStart

/-- Selection(const String& content): head (0,0), tail at the end of the
content (rowSpan = number of newlines, column = length − lastLineStart). -/
def ofContent (content : List Nat) : Selection :=
  let r := contentSpanAux content 0 0 0
  ⟨⟨0, 0⟩, ⟨r.1, (content.length : Int) - r.2⟩⟩

/-- Selection::startingFrom: pull the selection back to the origin, then push
it forward to the given index. -/
def startingFrom (s : Selection) (index : Pos) : Selection :=
  let origin := if s.IsOrientedP then s.head else s.tail
  let s1 := s.pullBy ⟨⟨0, 0⟩, origin⟩
  s1.pushBy ⟨⟨0, 0⟩, index⟩

/-- Selection::horizontallyMaximized: full lines from the head row through the
tail row. -/
def horizontallyMaximized (s : Selection) (doc : Doc) : Selection :=
  if s.IsOrientedP then
    ⟨⟨s.head.x, 0⟩, ⟨s.tail.x, getNumColumns doc s.tail.x⟩⟩
  else
    ⟨⟨s.head.x, getNumColumns doc s.head.x⟩, ⟨s.tail.x, 0⟩⟩

end Selection

/-- Middle rows of TextDocument::getSelectionContent: rows a … b−1, each with
a trailing newline. -/
def middleJoin (doc : Doc) (a b : Int) : List Nat :=
  ((List.range (b - a).toNat).map
    (fun k : Nat => lineAt doc (a + (k : Int)) ++ [nl])).flatten

/-- TextDocument::getSelectionContent. -/
def getSelectionContent (doc : Doc) (sel : Selection) : List Nat :=
  let s := sel.oriented
  if s.head.x = s.tail.x then
    substr (lineAt doc s.head.x) s.head.y s.tail.y
  else
    substrFrom (lineAt doc s.head.x) s.head.y ++ [nl] ++
      middleJoin doc (s.head.x + 1) s.tail.x ++
      substr (lineAt doc s.tail.x) 0 s.tail.y

/-- Transaction direction. -/
inductive Direction where
  | forward
  | reverse
deriving DecidableEq, Repr

/-- Flip a direction (the reciprocal's direction in fulfill). -/
def Direction.flip : Direction → Direction
  | .forward => .reverse
  | .reverse => .forward

/-- mcl::Transaction (the affectedArea rectangle is omitted: fulfill always
returns an infinite rectangle and no claim concerns it). -/
structure Transaction where
  selection : Selection
  content : List Nat
  direction : Direction
deriving DecidableEq, Repr

/-- Transaction::accountingForSpecialCharacters: when the content ends in the
backspace key the head is moved back if head.y == tail.y (the source compares
only the columns) and the content is cleared; symmetrically for the delete
key. -/
def Transaction.accountingForSpecialCharacters (t : Transaction) (doc : Doc) :
    Transaction :=
  if lastChar t.content = backspaceKey then
    { t with
      selection :=
        if t.selection.head.y = t.selection.tail.y then
          { t.selection with head := prev doc t.selection.head }
        else t.selection
      content := [] }
  else if lastChar t.content = deleteKey then
    { t with
      selection :=
        if t.selection.head.y = t.selection.tail.y then
          { t.selection with head := next doc t.selection.head }
        else t.selection
      content := [] }
  else t

/-- The document model state: the line store plus the active selections. -/
structure DocState where
  lines : Doc
  selections : List Selection
deriving DecidableEq, Repr

/-- TextDocument::fulfill: normalize special characters, orient the selection,
take the horizontally maximized content L, build the replacement M, reposition
every selection by pullBy/pushBy, splice the line store (the source routes the
splice through CodeDocument::replaceSection and rebuilds the line list from
the resulting text, which on the replaced row range equals the lines of M),
and return the reciprocal transaction. -/
def fulfill (st : DocState) (tr : Transaction) : DocState × Transaction :=
  let t := tr.accountingForSpecialCharacters st.lines
  let s := t.selection.oriented
  let L := getSelectionContent st.lines (s.horizontallyMaximized st.lines)
  let i := s.head.y
  let j := lastIndexOfNl L + s.tail.y + 1
  let M := substr L 0 i ++ t.content ++ substrFrom L j
  let ins := (Selection.ofContent t.content).startingFrom s.head
  let newSels := st.selections.map (fun e => (e.pullBy s).pushBy ins)
  let newLines :=
    st.lines.take s.head.x.toNat ++ splitLines M ++ st.lines.drop (s.tail.x + 1).toNat
  (⟨newLines, newSels⟩,
   ⟨ins, substr L i j, t.direction.flip⟩)

/-- One iteration of the loop in TextEditor::insert: build a forward
transaction for selection n, perform it, and let the callback overwrite
selection n with the reciprocal's selection (the reciprocal of a forward
transaction is reverse, so the callback keeps the singular tail). -/
def insertStep (content : List Nat) (st : DocState) (n : Nat) : DocState :=
  let t : Transaction :=
    ⟨st.selections.getD n ⟨⟨0, 0⟩, ⟨0, 0⟩⟩, content, .forward⟩
  let res := fulfill st t
  let r := res.2
  let newSel :=
    match r.direction with
    | .forward => r.selection
    | .reverse => ⟨r.selection.tail, r.selection.tail⟩
  ⟨res.1.lines, res.1.selections.set n newSel⟩

/-- TextEditor::insert: one transaction per selection, in order. -/
def insert (st : DocState) (content : List Nat) : DocState :=
  (List.range st.selections.length).foldl (insertStep content) st

/-! ### FoldableLineRange::Holder (TextDocument.h) -/

/-- One FoldableLineRange: the half-open row range [start, stop), the fold
flag, and the parent link.  The parent is an index into the holder's `all`
list; `setRanges` only ever links a range to an earlier list entry, so the
index is always smaller than the range's own position. -/
structure FoldR where
  start : Int
  stop : Int
  folded : Bool
  parent : Option Nat
deriving DecidableEq, Repr

instance : Inhabited FoldR := ⟨⟨0, 0, false, none⟩⟩

/-- Parent-chain walk of FoldableLineRange::isFolded, written with explicit
fuel so that it reduces structurally; the chain always points to strictly
earlier entries, so fuel i + 1 never runs out when starting at index i. -/
def rangeIsFoldedFuel (all : List FoldR) : Nat → Nat → Bool
  | 0, _ => false
  | fuel + 1, i =>
    match all.get? i with
    | none => false
    | some a =>
      if a.folded then true
      else
        match a.parent with
        | none => false
        | some p => if p < i then rangeIsFoldedFuel all fuel p else false

/-- FoldableLineRange::isFolded: the own flag, or a folded ancestor along the
parent chain. -/
def rangeIsFolded (all : List FoldR) (i : Nat) : Bool :=
  rangeIsFoldedFuel all (i + 1) i

/-- Rows set by `lineStates.setRange(start + 1, length - 1, true)`: the rows
strictly inside the range (the start row stays visible). -/
def rowsInside (a : FoldR) : List Int :=
  (List.range (a.stop - a.start - 1).toNat).map (fun k : Nat => a.start + 1 + (k : Int))

/-- FoldableLineRange::Holder: the flat range list `all` (with the hierarchy
in the parent links), the cached folded-row bits `lineStates`, and the
position-maintained start rows of the folded ranges `foldedPositions`. -/
structure Holder where
  all : List FoldR
  lineStates : List Int
  foldedPositions : List Int
deriving DecidableEq, Repr

/-- Holder::updateFoldState: clear lineStates and foldedPositions, then for
every range that isFolded record its maintained start position and mark the
rows strictly inside it. -/
def updateFoldState (h : Holder) : Holder :=
  let idxs := (List.range h.all.length).filter (fun i => rangeIsFolded h.all i)
  { h with
    lineStates := (idxs.map (fun i => rowsInside (h.all.getD i default))).flatten
    foldedPositions := idxs.map (fun i => (h.all.getD i default).start) }

/-- Holder::isFolded: reads the cached lineStates bit. -/
def Holder.isFolded (h : Holder) (row : Int) : Bool :=
  h.lineStates.contains row

/-- Holder::toggleFoldState: flip the fold flag of the first range whose
start row matches, then updateFoldState; no-op when there is none. -/
def toggleFoldState (h : Holder) (lineNumber : Int) : Holder :=
  match (List.range h.all.length).find?
      (fun i => (h.all.getD i default).start == lineNumber) with
  | none => h
  | some i =>
    updateFoldState
      { h with all := h.all.modify (fun a => { a with folded := !a.folded }) i }

/-- Insert into a sorted list (helper of `sortBy`). -/
def insertSorted {α : Type} (le : α → α → Bool) (x : α) : List α → List α
  | [] => [x]
  | y :: ys => if le x y then x :: y :: ys else y :: insertSorted le x ys

/-- Stable insertion sort, modelling the juce comparator-based array sort
(the comparator orderings used here are total). -/
def sortBy {α : Type} (le : α → α → Bool) (l : List α) : List α :=
  l.foldr (insertSorted le) []

/-- juce Range::contains(Range): start ≤ other.start and other.stop ≤ stop. -/
def containsRange (a b : FoldR) : Bool :=
  a.start ≤ b.start && b.stop ≤ a.stop

/-- Parent assignment loop of Holder::setRanges: for i ≥ 1, the parent is the
last j < i whose range contains range i. -/
def assignParents (l : List FoldR) : List FoldR :=
  (List.range l.length).map (fun i =>
    let a := l.getD i default
    { a with
      parent := ((List.range i).filter
        (fun j => containsRange (l.getD j default) a)).getLast? })

/-- Holder::setRanges: recreate the ranges (restoring the folded flag of any
range whose start row matches a maintained folded position), sort by start
row, build the parent hierarchy, and updateFoldState. -/
def setRanges (h : Holder) (ranges : List (Int × Int)) : Holder :=
  let foldedLines := h.foldedPositions
  let l0 := ranges.map (fun r =>
    FoldR.mk r.1 r.2 (foldedLines.contains r.1) none)
  let l1 := sortBy (fun a b => a.start ≤ b.start) l0
  updateFoldState { h with all := assignParents l1 }

/-- Modelled from the spec and the juce library: juce::CodeDocument keeps
positions flagged setPositionMaintained across edits; inserting `delta` rows
at or before a maintained row shifts that row by `delta`.  Nothing else in
the Holder reacts to a document edit (the edit path of the repository never
touches `all` or `lineStates`). -/
def applyRowInsertion (h : Holder) (atRow : Int) (delta : Int) : Holder :=
  { h with
    foldedPositions :=
      h.foldedPositions.map (fun p => if atRow ≤ p then p + delta else p) }

/-! ### TokenCollection (Autocomplete.h) -/

/-- TokenCollection::Token: the content and the priority (colour and
description do not enter any claim). -/
structure Token where
  content : List Nat
  priority : Int
deriving DecidableEq, Repr

/-- juce String::hashCode64: result = result * 101 + character, over the
content. -/
def hashCode64 (s : List Nat) : Int :=
  s.foldl (fun h c => h * 101 + (c : Int)) 0

/-- TokenCollection::getHashFromTokens: sums the content hashes into a local
accumulator that the C++ never initialises; `init` models its indeterminate
starting value. -/
def getHashFromTokens (init : Int) (l : List Token) : Int :=
  l.foldl (fun h t => h + hashCode64 t.content) init

/-- ASCII lower-casing of a code point (juce CharacterFunctions::toLowerCase
restricted to the ASCII range used by the claims). -/
def toLower (c : Nat) : Nat :=
  if 65 ≤ c ∧ c ≤ 90 then c + 32 else c

/-- Strict lexicographic comparison of code-point lists. -/
def lexLt : List Nat → List Nat → Bool
  | [], [] => false
  | [], _ :: _ => true
  | _ :: _, [] => false
  | a :: as, b :: bs => a < b || (a == b && lexLt as bs)

/-- Compare contents the way TokenCollection::Sorter does for equal
priorities (compareIgnoreCase ≤, modelled on lower-cased code points). -/
def tokenLe (a b : Token) : Bool :=
  if a.priority > b.priority then true
  else if a.priority < b.priority then false
  else lexLt (a.content.map toLower) (b.content.map toLower) ||
    a.content.map toLower == b.content.map toLower

/-- Does `hay` start with `needle`? -/
def startsWith : List Nat → List Nat → Bool
  | _, [] => true
  | [], _ :: _ => false
  | a :: as, b :: bs => a == b && startsWith as bs

/-- juce String::contains: case-sensitive substring test. -/
def containsSub : List Nat → List Nat → Bool
  | [], needle => startsWith [] needle
  | c :: rest, needle => startsWith (c :: rest) needle || containsSub rest needle

/-- TokenCollection::Token::matches: tokenContent.contains(input)
(case-SENSITIVE juce String::contains). -/
def Token.matches (t : Token) (input : List Nat) : Bool :=
  containsSub t.content input

/-- TokenCollection::hasEntries: some token in the published list matches. -/
def hasEntries (tokens : List Token) (input : List Nat) : Bool :=
  tokens.any (fun t => t.matches input)

/-- Spec-side definition, following the spec's words for comparison: a token
matches when the input is a case-insensitive substring of the content. -/
def matchesSpecIgnoreCase (content input : List Nat) : Bool :=
  containsSub (content.map toLower) (input.map toLower)

/-- Input is a (case-sensitive) substring of the content: the mathematical
statement `containsSub` implements. -/
def SubstringOf (needle hay : List Nat) : Prop :=
  ∃ u v, hay = u ++ needle ++ v

/-- The observable TokenCollection state: published tokens, the (never
updated) currentHash member, the dirty flag and the number of observer
notifications posted so far. -/
structure TCState where
  tokens : List Token
  currentHash : Int
  dirty : Bool
  notifications : Nat
deriving DecidableEq, Repr

/-- TokenCollection::signalRebuild: set dirty and wake the worker. -/
def signalRebuild (st : TCState) : TCState := { st with dirty := true }

/-- TokenCollection::rebuild: when dirty, collect the provider tokens, sort,
hash, and when the hash differs from currentHash swap the published list and
post one notification.  Faithful to the source, currentHash is never
assigned, and the hash accumulator starts from the indeterminate `init`. -/
def rebuild (providers : List (List Token)) (init : Int) (st : TCState) :
    TCState :=
  if st.dirty then
    if getHashFromTokens init (sortBy tokenLe (providers.foldl (fun acc p => acc ++ p) []))
        ≠ st.currentHash then
      { tokens := sortBy tokenLe (providers.foldl (fun acc p => acc ++ p) [])
        currentHash := st.currentHash
        dirty := false
        notifications := st.notifications + 1 }
    else { st with dirty := false }
  else st

/-! ### GlyphArrangementArray (TextEditor.cpp) -/

/-- One GlyphArrangementArray entry: the string, per-character token tags and
the cached glyph lists (glyphs are abstracted to opaque ids; the layout
geometry enters no claim). -/
structure GAEntry where
  string : List Nat
  tokens : List Int
  glyphs : List Nat
  glyphsWithTrailingSpace : List Nat
deriving DecidableEq, Repr

instance : Inhabited GAEntry := ⟨⟨[], [], [], []⟩⟩

/-- The wrapped line array. -/
structure GlyphArrangementArray where
  lines : List GAEntry
deriving DecidableEq, Repr

/-- The glyph produced by addLineOfText(font, " ", …) on the out-of-range
path of getGlyphs. -/
def spaceGlyph : Nat := 32

namespace GlyphArrangementArray

/-- GlyphArrangementArray::size. -/
def size (g : GlyphArrangementArray) : Int := g.lines.length

/-- GlyphArrangementArray::operator[]: the line's string, or the shared empty
string when the index is not positive-and-below size. -/
def lineString (g : GlyphArrangementArray) (index : Int) : List Nat :=
  if 0 ≤ index ∧ index < g.size then (g.lines.getD index.toNat default).string
  else []

/-- GlyphArrangementArray::getToken: the default when the row is out of
range, otherwise tokens[col] (a juce Array read, 0 out of range). -/
def getToken (g : GlyphArrangementArray) (row col dflt : Int) : Int :=
  if ¬(0 ≤ row ∧ row < g.size) then dflt
  else
    let toks := (g.lines.getD row.toNat default).tokens
    if 0 ≤ col ∧ col < (toks.length : Int) then toks.getD col.toNat 0 else 0

/-- GlyphArrangementArray::getGlyphs: on an out-of-range row an empty
arrangement (just the trailing space when requested); otherwise the cached
glyph source filtered by token tag (DEBUG_TOKENS is false).  The baseline
translation is pure geometry and is not modelled. -/
def getGlyphs (g : GlyphArrangementArray) (index : Int) (token : Int)
    (withTrailingSpace : Bool) : List Nat :=
  if ¬(0 ≤ index ∧ index < g.size) then
    if withTrailingSpace then [spaceGlyph] else []
  else
    let entry := g.lines.getD index.toNat default
    let glyphSource :=
      if withTrailingSpace then entry.glyphsWithTrailingSpace else entry.glyphs
    (glyphSource.enum.filter
      (fun gn => token = -1 ∨ entry.tokens.getD gn.1 0 = token)).map (·.2)

end GlyphArrangementArray

/-! ### Validity predicates used by the claims -/

/-- A position lies inside the document: row in range, column between 0 and
the line length inclusive. -/
def ValidPos (doc : Doc) (p : Pos) : Prop :=
  0 ≤ p.x ∧ p.x < getNumRows doc ∧ 0 ≤ p.y ∧ p.y ≤ getNumColumns doc p.x

instance (doc : Doc) (p : Pos) : Decidable (ValidPos doc p) := by
  unfold ValidPos; infer_instance

/-- Document well-formedness: no line contains a newline or one of the
special delete markers. -/
def DocOk (doc : Doc) : Prop :=
  ∀ l ∈ doc, nl ∉ l ∧ backspaceKey ∉ l ∧ deleteKey ∉ l

instance (doc : Doc) : Decidable (DocOk doc) := by
  unfold DocOk; infer_instance

/-- Column shift that `pull` applies on the tail row of an oriented removed
span s: tail.y − head.y on a single-row span, tail.y across rows. -/
def colShift (s : Selection) : Int :=
  if s.head.x = s.tail.x then s.tail.y - s.head.y else s.tail.y

/-- A point whose pull/push round trip is the identity: strictly before the
head row, strictly after the tail row, or on the tail row with the column
outside the pulled band [head.y, head.y + colShift). -/
def OutsideRemoved (s : Selection) (p : Pos) : Prop :=
  p.x < s.head.x ∨ s.tail.x < p.x ∨
    (p.x = s.tail.x ∧ (p.y < s.head.y ∨ s.head.y + colShift s ≤ p.y))

instance (s : Selection) (p : Pos) : Decidable (OutsideRemoved s p) := by
  unfold OutsideRemoved; infer_instance

/-- The selection spanning `c` when laid down starting at `p` (the value of
Selection(c).startingFrom(p)). -/
def spanFrom (p : Pos) (c : List Nat) : Selection :=
  ⟨p, ⟨p.x + countNl c,
      if countNl c = 0 then p.y + c.length
      else (((splitLines c).getLastD []).length : Int)⟩⟩

/-- The rows a..b of the document (both ends included). -/
def sliceRows (doc : Doc) (a b : Int) : Doc :=
  (doc.drop a.toNat).take (b - a + 1).toNat

/-! ## Helper lemmas -/
namespace Selection

theorem oriented_of_isOriented (s : Selection) (hor : s.IsOrientedP) :
    s.oriented = s := by
  unfold oriented
  rw [if_pos hor]

theorem isOriented_oriented (s : Selection) : s.oriented.IsOrientedP := by
  unfold oriented
  split_ifs with h
  · exact h
  · unfold IsOrientedP swapped at *
    simp only at *
    omega

theorem pull_oriented (S : Selection) (hor : S.IsOrientedP) (p : Pos) :
    S.pull p =
      ⟨if S.head.x ≤ p.x then p.x - (S.tail.x - S.head.x) else p.x,
       if S.tail.x = p.x ∧ S.head.y ≤ p.y then
         (if S.head.x = S.tail.x then p.y - (S.tail.y - S.head.y) else p.y - S.tail.y)
       else p.y⟩ := by
  simp only [pull, oriented_of_isOriented S hor]

theorem push_oriented (S : Selection) (hor : S.IsOrientedP) (p : Pos) :
    S.push p =
      ⟨if S.head.x ≤ p.x then p.x + (S.tail.x - S.head.x) else p.x,
       if S.head.x = p.x ∧ S.head.y ≤ p.y then
         (if S.head.x = S.tail.x then p.y + (S.tail.y - S.head.y) else p.y + S.tail.y)
       else p.y⟩ := by
  simp only [push, oriented_of_isOriented S hor]

/-- pull inverts push unconditionally (for an oriented span with a
non-negative tail column). -/
theorem pull_push (S : Selection) (hor : S.IsOrientedP) (hty : 0 ≤ S.tail.y) (q : Pos) :
    S.pull (S.push q) = q := by
  unfold IsOrientedP at hor
  rw [push_oriented S (by unfold IsOrientedP; omega), pull_oriented S (by unfold IsOrientedP; omega)]
  cases q with
  | mk qx qy =>
    simp only [Pos.mk.injEq]
    split_ifs <;> constructor <;> omega

/-- push inverts pull on points outside the removed band. -/
theorem push_pull (S : Selection) (hor : S.IsOrientedP) (hty : 0 ≤ S.tail.y) (p : Pos)
    (hout : OutsideRemoved S p) :
    S.push (S.pull p) = p := by
  unfold IsOrientedP at hor
  unfold OutsideRemoved colShift at hout
  rw [pull_oriented S (by unfold IsOrientedP; omega), push_oriented S (by unfold IsOrientedP; omega)]
  cases p with
  | mk px py =>
    simp only at hout
    split_ifs at hout
    all_goals (simp only [Pos.mk.injEq]; split_ifs <;> constructor <;> omega)

end Selection
theorem splitLines_ne_nil (m : List Nat) : splitLines m ≠ [] := by
  cases m with
  | nil => simp [splitLines]
  | cons c cs => unfold splitLines; split_ifs <;> simp

theorem joinNl_cons (l : List Nat) (ls : List (List Nat)) (h : ls ≠ []) :
    joinNl (l :: ls) = l ++ nl :: joinNl ls := by
  cases ls with
  | nil => exact absurd rfl h
  | cons a as => rfl

theorem joinNl_splitLines (m : List Nat) : joinNl (splitLines m) = m := by
  induction m with
  | nil => rfl
  | cons c cs ih =>
    unfold splitLines
    by_cases hc : c = nl
    · rw [if_pos hc, joinNl_cons _ _ (splitLines_ne_nil cs), ih, hc]
      rfl
    · rw [if_neg hc]
      cases h : splitLines cs with
      | nil => exact absurd h (splitLines_ne_nil cs)
      | cons a as =>
        cases as with
        | nil =>
          simp only [List.headD, List.tail]
          show joinNl [c :: a] = c :: cs
          rw [show joinNl [c :: a] = c :: a from rfl]
          have := ih
          rw [h] at this
          simp only [joinNl] at this
          rw [this]
        | cons b bs =>
          simp only [List.headD, List.tail]
          rw [joinNl_cons _ _ (by simp)]
          have := ih
          rw [h, joinNl_cons _ _ (by simp)] at this
          simp only [List.cons_append]
          rw [← this]

theorem noNl_splitLines (m : List Nat) : ∀ l ∈ splitLines m, nl ∉ l := by
  induction m with
  | nil => simp [splitLines]
  | cons c cs ih =>
    unfold splitLines
    by_cases hc : c = nl
    · rw [if_pos hc]
      intro l hl
      rcases List.mem_cons.mp hl with rfl | hl
      · simp
      · exact ih l hl
    · rw [if_neg hc]
      intro l hl
      rcases List.mem_cons.mp hl with rfl | hl
      · intro hmem
        rcases List.mem_cons.mp hmem with rfl | hmem
        · exact hc rfl
        · cases h : splitLines cs with
          | nil => exact absurd h (splitLines_ne_nil cs)
          | cons a as =>
            rw [h] at hmem
            exact ih a (by rw [h]; exact List.mem_cons_self a as) (by simpa using hmem)
      · cases h : splitLines cs with
        | nil => exact absurd h (splitLines_ne_nil cs)
        | cons a as =>
          rw [h] at hl
          exact ih l (by rw [h]; exact List.mem_cons_of_mem a hl)

theorem length_splitLines (m : List Nat) :
    (splitLines m).length = countNl m + 1 := by
  induction m with
  | nil => rfl
  | cons c cs ih =>
    unfold splitLines countNl
    by_cases hc : c = nl
    · rw [if_pos hc]
      simp only [List.length_cons, List.count_cons]
      unfold countNl at ih
      rw [hc]
      simp [ih]
    · rw [if_neg hc]
      cases h : splitLines cs with
      | nil => exact absurd h (splitLines_ne_nil cs)
      | cons a as =>
        simp only [List.length_cons, List.count_cons, List.tail]
        unfold countNl at ih
        rw [h] at ih
        simp only [List.length_cons] at ih
        simp [ih, hc, Ne.symm hc]

theorem splitLines_of_noNl (m : List Nat) (h : nl ∉ m) : splitLines m = [m] := by
  induction m with
  | nil => rfl
  | cons c cs ih =>
    unfold splitLines
    rw [if_neg (by intro hc; exact h (by simp [hc]))]
    rw [ih (by intro hc; exact h (by simp [hc]))]
    rfl


theorem splitLines_cons (c : Nat) (m : List Nat) (hc : c ≠ nl) :
    splitLines (c :: m) = (c :: (splitLines m).headD []) :: (splitLines m).tail := by
  conv_lhs => rw [splitLines]
  rw [if_neg hc]

theorem splitLines_append_noNl (a m : List Nat) (h : nl ∉ a) :
    splitLines (a ++ m) = mapHead (fun l => a ++ l) (splitLines m) := by
  induction a with
  | nil =>
    cases hs : splitLines m with
    | nil => exact absurd hs (splitLines_ne_nil m)
    | cons x xs => rw [List.nil_append, hs]; simp [mapHead]
  | cons c cs ih =>
    simp only [List.cons_append]
    rw [splitLines_cons _ _ (by intro hc; exact h (by simp [hc]))]
    rw [ih (by intro hc; exact h (by simp [hc]))]
    cases hs : splitLines m with
    | nil => exact absurd hs (splitLines_ne_nil m)
    | cons x xs => simp [mapHead]

theorem splitLines_cons_nl (m : List Nat) :
    splitLines (nl :: m) = [] :: splitLines m := by
  rfl

theorem splitLines_joinNl (ls : List (List Nat)) (hne : ls ≠ [])
    (h : ∀ l ∈ ls, nl ∉ l) : splitLines (joinNl ls) = ls := by
  induction ls with
  | nil => exact absurd rfl hne
  | cons l ls ih =>
    cases ls with
    | nil =>
      show splitLines (joinNl [l]) = [l]
      exact splitLines_of_noNl l (h l (by simp))
    | cons m ms =>
      rw [joinNl_cons _ _ (by simp)]
      rw [splitLines_append_noNl _ _ (h l (by simp)), splitLines_cons_nl,
        ih (by simp) (fun x hx => h x (List.mem_cons_of_mem l hx))]
      simp [mapHead]

theorem joinNl_append_single (ls : List (List Nat)) (x : List Nat) (h : ls ≠ []) :
    joinNl (ls ++ [x]) = joinNl ls ++ nl :: x := by
  induction ls with
  | nil => exact absurd rfl h
  | cons l ls ih =>
    cases ls with
    | nil => rfl
    | cons m ms =>
      rw [List.cons_append, joinNl_cons _ _ (by simp), joinNl_cons _ _ (by simp),
        ih (by simp)]
      simp

theorem mem_joinNl (ls : List (List Nat)) (x : Nat) (hx : x ∈ joinNl ls) :
    x = nl ∨ ∃ l ∈ ls, x ∈ l := by
  induction ls with
  | nil => simp [joinNl] at hx
  | cons l ls ih =>
    cases ls with
    | nil =>
      right
      exact ⟨l, by simp, by simpa [joinNl] using hx⟩
    | cons m ms =>
      rw [joinNl_cons _ _ (by simp)] at hx
      rcases List.mem_append.mp hx with h1 | h1
      · exact Or.inr ⟨l, by simp, h1⟩
      · rcases List.mem_cons.mp h1 with rfl | h2
        · exact Or.inl rfl
        · rcases ih h2 with h3 | ⟨l', hl', hxl'⟩
          · exact Or.inl h3
          · exact Or.inr ⟨l', List.mem_cons_of_mem l hl', hxl'⟩

theorem countNl_joinNl (ls : List (List Nat)) (hne : ls ≠ [])
    (h : ∀ l ∈ ls, nl ∉ l) : countNl (joinNl ls) = ls.length - 1 := by
  have := length_splitLines (joinNl ls)
  rw [splitLines_joinNl ls hne h] at this
  omega

theorem lastIndexOfNl_noNl (l : List Nat) (h : nl ∉ l) : lastIndexOfNl l = -1 := by
  induction l with
  | nil => rfl
  | cons c cs ih =>
    unfold lastIndexOfNl
    rw [ih (by intro hc; exact h (by simp [hc]))]
    rw [if_neg (by omega), if_neg (by intro hc; exact h (by simp [hc]))]

theorem lastIndexOfNl_append (a b : List Nat) (h : nl ∉ b) :
    lastIndexOfNl (a ++ nl :: b) = a.length := by
  induction a with
  | nil =>
    show lastIndexOfNl (nl :: b) = 0
    unfold lastIndexOfNl
    rw [lastIndexOfNl_noNl b h]
    norm_num
  | cons c cs ih =>
    show lastIndexOfNl (c :: (cs ++ nl :: b)) = _
    unfold lastIndexOfNl
    rw [ih]
    rw [if_pos (by positivity)]
    simp

theorem length_joinNl_ge (ls : List (List Nat)) (x : List Nat) (h : ls ≠ []) :
    (joinNl (ls ++ [x])).length = (joinNl ls).length + 1 + x.length := by
  rw [joinNl_append_single ls x h]
  simp
  omega





theorem getLastD_indep {α : Type} (l : List α) (a b : α) (h : l ≠ []) :
    l.getLastD a = l.getLastD b := by
  cases l with
  | nil => exact absurd rfl h
  | cons x xs => rw [List.getLastD_cons, List.getLastD_cons]

theorem lastSplit_cons_nl (cs : List Nat) :
    (splitLines (nl :: cs)).getLastD [] = (splitLines cs).getLastD [] := by
  rw [splitLines_cons_nl]
  cases h : splitLines cs with
  | nil => exact absurd h (splitLines_ne_nil cs)
  | cons x xs => rw [List.getLastD_cons]

theorem lastSplit_cons_of_count (c : Nat) (cs : List Nat) (hc : c ≠ nl)
    (h0 : countNl cs ≠ 0) :
    (splitLines (c :: cs)).getLastD [] = (splitLines cs).getLastD [] := by
  rw [splitLines_cons c cs hc]
  cases h : splitLines cs with
  | nil => exact absurd h (splitLines_ne_nil cs)
  | cons x xs =>
    cases xs with
    | nil =>
      exfalso
      have hl := length_splitLines cs
      rw [h] at hl
      simp only [List.length_cons, List.length_nil] at hl
      omega
    | cons y ys =>
      simp only [List.tail_cons, List.getLastD_cons]

theorem lastSplit_of_count_zero (cs : List Nat) (h0 : countNl cs = 0) :
    (splitLines cs).getLastD [] = cs := by
  rw [splitLines_of_noNl cs (List.count_eq_zero.mp h0)]
  rfl

theorem countNl_cons_nl (cs : List Nat) : countNl (nl :: cs) = countNl cs + 1 := by
  simp [countNl, List.count_cons]

theorem countNl_cons_other (c : Nat) (cs : List Nat) (hc : c ≠ nl) :
    countNl (c :: cs) = countNl cs := by
  simp [countNl, List.count_cons, hc]

theorem contentSpanAux_spec (cs : List Nat) : ∀ r n l : Int,
    Selection.contentSpanAux cs r n l =
      (r + countNl cs,
       if countNl cs = 0 then l
       else n + cs.length - (((splitLines cs).getLastD []).length : Int)) := by
  induction cs with
  | nil =>
    intro r n l
    simp [Selection.contentSpanAux, countNl]
  | cons c cs ih =>
    intro r n l
    unfold Selection.contentSpanAux
    by_cases hc : c = nl
    · rw [if_pos hc, ih]
      subst hc
      rw [countNl_cons_nl, lastSplit_cons_nl, if_neg (by omega : ¬(countNl cs + 1 = 0))]
      by_cases h0 : countNl cs = 0
      · rw [if_pos h0, lastSplit_of_count_zero cs h0]
        simp only [Prod.mk.injEq, List.length_cons]
        constructor <;> push_cast <;> omega
      · rw [if_neg h0]
        simp only [Prod.mk.injEq, List.length_cons]
        constructor <;> push_cast <;> omega
    · rw [if_neg hc, ih, countNl_cons_other c cs hc]
      by_cases h0 : countNl cs = 0
      · simp only [if_pos h0]
      · simp only [if_neg h0]
        rw [lastSplit_cons_of_count c cs hc h0]
        simp only [Prod.mk.injEq, List.length_cons]
        constructor <;> push_cast <;> omega

theorem ofContent_eq (c : List Nat) :
    Selection.ofContent c =
      ⟨⟨0, 0⟩, ⟨(countNl c : Int), (((splitLines c).getLastD []).length : Int)⟩⟩ := by
  unfold Selection.ofContent
  rw [contentSpanAux_spec]
  by_cases h0 : countNl c = 0
  · rw [if_pos h0, lastSplit_of_count_zero c h0, h0]
    simp
  · rw [if_neg h0]
    simp only [Selection.mk.injEq, Pos.mk.injEq, true_and]
    constructor
    · omega
    · push_cast; omega

theorem pull_zero (q : Pos) : Selection.pull ⟨⟨0, 0⟩, ⟨0, 0⟩⟩ q = q := by
  rw [Selection.pull_oriented _ (by unfold Selection.IsOrientedP; simp) q]
  cases q with
  | mk qx qy =>
    simp only [Pos.mk.injEq]
    constructor <;> (split_ifs <;> omega)

theorem startingFrom_ofContent (c : List Nat) (p : Pos) (hx : 0 ≤ p.x) (hy : 0 ≤ p.y) :
    (Selection.ofContent c).startingFrom p = spanFrom p c := by
  unfold Selection.startingFrom
  rw [ofContent_eq]
  have hor : Selection.IsOrientedP ⟨⟨0, 0⟩, ⟨(countNl c : Int),
      (((splitLines c).getLastD []).length : Int)⟩⟩ := by
    unfold Selection.IsOrientedP
    simp only
    omega
  rw [if_pos hor]
  unfold Selection.pullBy Selection.pushBy
  simp only
  rw [pull_zero, pull_zero]
  have hor1 : Selection.IsOrientedP ⟨⟨0, 0⟩, p⟩ := by
    unfold Selection.IsOrientedP
    simp only
    omega
  rw [Selection.push_oriented _ hor1, Selection.push_oriented _ hor1]
  have hLc : countNl c = 0 → (((splitLines c).getLastD []).length : Int) = (c.length : Int) := by
    intro h0
    rw [lastSplit_of_count_zero c h0]
  unfold spanFrom
  obtain ⟨px, py⟩ := p
  simp only at hx hy hLc ⊢
  simp only [Selection.mk.injEq, Pos.mk.injEq]
  refine ⟨⟨?_, ?_⟩, ?_, ?_⟩
  · split_ifs <;> first | omega | simp_all
  · split_ifs <;> first | omega | simp_all
  · split_ifs <;> first | omega | (push_cast; omega) | simp_all
  · by_cases h0 : countNl c = 0
    · have hL := hLc h0
      split_ifs <;> first | omega | simp_all
    · split_ifs <;> first | omega | simp_all




theorem sliceRows_length (doc : Doc) (a b : Int) (h0 : 0 ≤ a) (hb : b < doc.length) :
    (sliceRows doc a b).length = (b - a + 1).toNat := by
  unfold sliceRows
  rw [List.length_take, List.length_drop]
  omega

theorem sliceRows_cons (doc : Doc) (a b : Int) (h0 : 0 ≤ a) (hab : a ≤ b)
    (ha : a < doc.length) :
    sliceRows doc a b = lineAt doc a :: sliceRows doc (a + 1) b := by
  unfold sliceRows lineAt
  rw [if_neg (by omega)]
  have hlt : a.toNat < doc.length := by omega
  rw [List.drop_eq_getElem_cons hlt]
  have h1 : (b - a + 1).toNat = (b - (a + 1) + 1).toNat + 1 := by omega
  rw [h1, List.take_succ_cons]
  have h2 : (a + 1).toNat = a.toNat + 1 := by omega
  rw [h2]
  congr 1
  rw [List.getD_eq_getElem?_getD, List.getElem?_eq_getElem hlt]
  rfl

theorem sliceRows_single (doc : Doc) (a : Int) (h0 : 0 ≤ a) (ha : a < doc.length) :
    sliceRows doc a a = [lineAt doc a] := by
  rw [sliceRows_cons doc a a h0 le_rfl ha]
  unfold sliceRows
  have : (a - (a + 1) + 1).toNat = 0 := by omega
  rw [this]
  rfl

theorem middleJoin_succ (doc : Doc) (a b : Int) (hab : a < b) :
    middleJoin doc a b = (lineAt doc a ++ [nl]) ++ middleJoin doc (a + 1) b := by
  unfold middleJoin
  have h1 : (b - a).toNat = (b - (a + 1)).toNat + 1 := by omega
  rw [h1, List.range_succ_eq_map]
  rw [List.map_cons, List.flatten_cons]
  congr 1
  · congr 1
    norm_num
  · rw [List.map_map]
    congr 1
    apply List.map_congr_left
    intro k _
    simp only [Function.comp_apply]
    congr 2
    push_cast
    ring

theorem middleJoin_nil (doc : Doc) (a b : Int) (hab : b ≤ a) :
    middleJoin doc a b = [] := by
  unfold middleJoin
  have h1 : (b - a).toNat = 0 := by omega
  rw [h1]
  rfl

theorem middle_spec (doc : Doc) : ∀ (n : Nat) (a b : Int), (b - a).toNat = n → 0 ≤ a →
    a ≤ b → b < doc.length →
    middleJoin doc a b ++ lineAt doc b = joinNl (sliceRows doc a b) := by
  intro n
  induction n with
  | zero =>
    intro a b hn h0 hab hb
    have hab' : a = b := by omega
    subst hab'
    rw [middleJoin_nil doc a a le_rfl, sliceRows_single doc a h0 (by omega)]
    rfl
  | succ n ih =>
    intro a b hn h0 hab hb
    have hab' : a < b := by omega
    rw [middleJoin_succ doc a b hab']
    rw [sliceRows_cons doc a b h0 hab (by omega)]
    have hne : sliceRows doc (a + 1) b ≠ [] := by
      have := sliceRows_length doc (a + 1) b (by omega) hb
      intro hcon
      rw [hcon] at this
      simp at this
      omega
    rw [joinNl_cons _ _ hne]
    rw [← ih (a + 1) b (by omega) (by omega) (by omega) hb]
    simp

theorem substr_full (l : List Nat) : substr l 0 (l.length : Int) = l := by
  unfold substr
  simp

theorem content_maximized (doc : Doc) (a ya b yb : Int)
    (hor : a < b ∨ (a = b ∧ ya ≤ yb)) (h0 : 0 ≤ a) (hb : b < doc.length) :
    getSelectionContent doc
        (Selection.horizontallyMaximized ⟨⟨a, ya⟩, ⟨b, yb⟩⟩ doc) =
      joinNl (sliceRows doc a b) := by
  unfold Selection.horizontallyMaximized
  rw [if_pos (by unfold Selection.IsOrientedP; simpa using hor)]
  unfold getSelectionContent
  rw [Selection.oriented_of_isOriented _ (by
    unfold Selection.IsOrientedP
    simp only
    rcases hor with h | ⟨h, _⟩
    · exact Or.inl h
    · exact Or.inr ⟨h, by unfold getNumColumns; exact Int.natCast_nonneg _⟩)]
  simp only
  by_cases hab : a = b
  · rw [if_pos hab]
    subst hab
    unfold getNumColumns
    rw [substr_full, sliceRows_single doc a h0 hb]
    rfl
  · rw [if_neg hab]
    have hab' : a < b := by rcases hor with h | ⟨h, _⟩; exact h; exact absurd h hab
    unfold getNumColumns substrFrom
    simp only [Int.toNat_zero, List.drop_zero]
    rw [substr_full]
    rw [sliceRows_cons doc a b h0 (by omega) (by omega)]
    have hne : sliceRows doc (a + 1) b ≠ [] := by
      have := sliceRows_length doc (a + 1) b (by omega) hb
      intro hcon
      rw [hcon] at this
      simp at this
      omega
    rw [joinNl_cons _ _ hne]
    rw [← middle_spec doc (b - (a+1)).toNat (a + 1) b rfl (by omega) (by omega) hb]
    simp


theorem mapHead_cons (f : List Nat → List Nat) (l : List Nat) (ls : List (List Nat)) :
    mapHead f (l :: ls) = f l :: ls := rfl

theorem mapLast_cons (f : List Nat → List Nat) (l : List Nat) (ls : List (List Nat))
    (h : ls ≠ []) : mapLast f (l :: ls) = l :: mapLast f ls := by
  cases ls with
  | nil => exact absurd rfl h
  | cons m ms => rfl

theorem mapLast_ne_nil (f : List Nat → List Nat) (ls : List (List Nat)) (h : ls ≠ []) :
    mapLast f ls ≠ [] := by
  cases ls with
  | nil => exact absurd rfl h
  | cons l ls => cases ls <;> simp [mapLast]

theorem mapHead_ne_nil (f : List Nat → List Nat) (ls : List (List Nat)) (h : ls ≠ []) :
    mapHead f ls ≠ [] := by
  cases ls with
  | nil => exact absurd rfl h
  | cons l ls => simp [mapHead]

theorem mapLast_append_single (f : List Nat → List Nat) (ls : List (List Nat))
    (x : List Nat) : mapLast f (ls ++ [x]) = ls ++ [f x] := by
  induction ls with
  | nil => rfl
  | cons l ls ih =>
    rw [List.cons_append, mapLast_cons f l (ls ++ [x]) (by simp), ih]
    rfl

theorem joinNl_mapHead (a : List Nat) (ls : List (List Nat)) (h : ls ≠ []) :
    joinNl (mapHead (fun l => a ++ l) ls) = a ++ joinNl ls := by
  cases ls with
  | nil => exact absurd rfl h
  | cons l ls =>
    cases ls with
    | nil => rfl
    | cons m ms =>
      rw [mapHead_cons, joinNl_cons (a ++ l) (m :: ms) (by simp),
        joinNl_cons l (m :: ms) (by simp)]
      simp

theorem joinNl_mapLast (b : List Nat) (ls : List (List Nat)) (h : ls ≠ []) :
    joinNl (mapLast (fun l => l ++ b) ls) = joinNl ls ++ b := by
  induction ls with
  | nil => exact absurd rfl h
  | cons l ls ih =>
    cases ls with
    | nil => rfl
    | cons m ms =>
      rw [mapLast_cons _ _ _ (by simp), joinNl_cons _ _ (mapLast_ne_nil _ _ (by simp)),
        joinNl_cons _ _ (by simp), ih (by simp)]
      simp

theorem noNl_mapHead_wrap (a : List Nat) (ha : nl ∉ a) (ls : List (List Nat))
    (h : ∀ l ∈ ls, nl ∉ l) : ∀ l ∈ mapHead (fun l => a ++ l) ls, nl ∉ l := by
  cases ls with
  | nil => simp [mapHead]
  | cons l ls =>
    intro x hx
    rcases List.mem_cons.mp hx with rfl | hx
    · intro hmem
      rcases List.mem_append.mp hmem with hmem | hmem
      · exact ha hmem
      · exact h l (by simp) hmem
    · exact h x (List.mem_cons_of_mem l hx)

theorem noNl_mapLast_wrap (b : List Nat) (hb : nl ∉ b) (ls : List (List Nat))
    (h : ∀ l ∈ ls, nl ∉ l) : ∀ l ∈ mapLast (fun l => l ++ b) ls, nl ∉ l := by
  induction ls with
  | nil => simp [mapLast]
  | cons l ls ih =>
    cases ls with
    | nil =>
      intro x hx
      rcases List.mem_cons.mp hx with rfl | hx
      · intro hmem
        rcases List.mem_append.mp hmem with hmem | hmem
        · exact h l (by simp) hmem
        · exact hb hmem
      · simp at hx
    | cons m ms =>
      rw [mapLast_cons _ _ _ (by simp)]
      intro x hx
      rcases List.mem_cons.mp hx with rfl | hx
      · exact h x (by simp)
      · exact ih (fun y hy => h y (List.mem_cons_of_mem l hy)) x hx

theorem splitLines_wrap (a b m : List Nat) (ha : nl ∉ a) (hb : nl ∉ b) :
    splitLines (a ++ m ++ b) =
      mapHead (fun l => a ++ l) (mapLast (fun l => l ++ b) (splitLines m)) := by
  have h1 : a ++ m ++ b =
      joinNl (mapHead (fun l => a ++ l) (mapLast (fun l => l ++ b) (splitLines m))) := by
    rw [joinNl_mapHead a _ (mapLast_ne_nil _ _ (splitLines_ne_nil m)),
      joinNl_mapLast b _ (splitLines_ne_nil m), joinNl_splitLines]
    simp [List.append_assoc]
  rw [h1]
  exact splitLines_joinNl _
    (mapHead_ne_nil _ _ (mapLast_ne_nil _ _ (splitLines_ne_nil m)))
    (noNl_mapHead_wrap a ha _ (noNl_mapLast_wrap b hb _ (noNl_splitLines m)))

theorem lineAt_mem (doc : Doc) (r : Int) (h0 : 0 ≤ r) (hr : r < doc.length) :
    lineAt doc r ∈ doc := by
  unfold lineAt
  rw [if_neg (by omega)]
  rw [List.getD_eq_getElem?_getD, List.getElem?_eq_getElem (by omega)]
  exact List.getElem_mem _

theorem sliceRows_subset (doc : Doc) (a b : Int) :
    ∀ l ∈ sliceRows doc a b, l ∈ doc := by
  intro l hl
  unfold sliceRows at hl
  exact List.mem_of_mem_drop (List.mem_of_mem_take hl)

theorem sliceRows_concat (doc : Doc) : ∀ (n : Nat) (a b : Int), (b - a).toNat = n →
    0 ≤ a → a ≤ b → b < doc.length →
    sliceRows doc a b = sliceRows doc a (b - 1) ++ [lineAt doc b] := by
  intro n
  induction n with
  | zero =>
    intro a b hn h0 hab hb
    have : a = b := by omega
    subst this
    rw [sliceRows_single doc a h0 (by omega)]
    have : (a - 1 - a + 1).toNat = 0 := by omega
    unfold sliceRows
    rw [this]
    rfl
  | succ n ih =>
    intro a b hn h0 hab hb
    have hab' : a < b := by omega
    rw [sliceRows_cons doc a b h0 hab (by omega),
      ih (a + 1) b (by omega) (by omega) (by omega) hb,
      sliceRows_cons doc a (b - 1) h0 (by omega) (by omega)]
    rfl

theorem substr_zero_take (l : List Nat) (i : Int) : substr l 0 i = l.take i.toNat := by
  unfold substr
  simp


theorem fulfill_content_eqs (doc : Doc) (hx hy tx ty : Int)
    (hor : hx < tx ∨ (hx = tx ∧ hy ≤ ty))
    (hnl : ∀ l ∈ doc, nl ∉ l)
    (hhx : 0 ≤ hx) (htx : (tx : Int) < doc.length)
    (hhy : 0 ≤ hy) (hhyl : hy ≤ ((lineAt doc hx).length : Int))
    (hty : 0 ≤ ty) (htyl : ty ≤ ((lineAt doc tx).length : Int)) :
    substr (joinNl (sliceRows doc hx tx)) 0 hy = (lineAt doc hx).take hy.toNat ∧
    substrFrom (joinNl (sliceRows doc hx tx))
        (lastIndexOfNl (joinNl (sliceRows doc hx tx)) + ty + 1) =
      (lineAt doc tx).drop ty.toNat ∧
    substr (joinNl (sliceRows doc hx tx)) hy
        (lastIndexOfNl (joinNl (sliceRows doc hx tx)) + ty + 1) =
      joinNl (mapHead (fun l => l.drop hy.toNat)
        (mapLast (fun l => l.take ty.toNat) (sliceRows doc hx tx))) := by
  by_cases hab : hx = tx
  · -- single-row span
    subst hab
    have hyt : hy ≤ ty := by
      rcases hor with h | ⟨_, h⟩
      · omega
      · exact h
    rw [sliceRows_single doc hx hhx (by omega)]
    have hLnl : nl ∉ lineAt doc hx := hnl _ (lineAt_mem doc hx hhx (by omega))
    have hlast : lastIndexOfNl (joinNl [lineAt doc hx]) = -1 := by
      rw [show joinNl [lineAt doc hx] = lineAt doc hx from rfl]
      exact lastIndexOfNl_noNl _ hLnl
    rw [hlast]
    rw [show joinNl [lineAt doc hx] = lineAt doc hx from rfl]
    refine ⟨?_, ?_, ?_⟩
    · rw [substr_zero_take]
    · unfold substrFrom
      congr 1
      omega
    · rw [show mapLast (fun l => l.take ty.toNat) [lineAt doc hx] =
          [(lineAt doc hx).take ty.toNat] from rfl]
      rw [show mapHead (fun l => l.drop hy.toNat) [(lineAt doc hx).take ty.toNat] =
          [((lineAt doc hx).take ty.toNat).drop hy.toNat] from rfl]
      rw [show joinNl [((lineAt doc hx).take ty.toNat).drop hy.toNat] =
          ((lineAt doc hx).take ty.toNat).drop hy.toNat from rfl]
      unfold substr
      congr 2
      omega
  · -- multi-row span
    have hab' : hx < tx := by
      rcases hor with h | ⟨h, _⟩
      · exact h
      · exact absurd h hab
    have hcons : sliceRows doc hx tx = lineAt doc hx :: sliceRows doc (hx + 1) tx :=
      sliceRows_cons doc hx tx hhx (by omega) (by omega)
    have htailne : sliceRows doc (hx + 1) tx ≠ [] := by
      have := sliceRows_length doc (hx + 1) tx (by omega) htx
      intro hcon
      rw [hcon] at this
      simp at this
      omega
    have hconcat : sliceRows doc hx tx = sliceRows doc hx (tx - 1) ++ [lineAt doc tx] :=
      sliceRows_concat doc (tx - hx).toNat hx tx rfl hhx (by omega) htx
    have hinitne : sliceRows doc hx (tx - 1) ≠ [] := by
      have := sliceRows_length doc hx (tx - 1) hhx (by omega)
      intro hcon
      rw [hcon] at this
      simp at this
      omega
    have hLdecomp : joinNl (sliceRows doc hx tx) =
        joinNl (sliceRows doc hx (tx - 1)) ++ nl :: lineAt doc tx := by
      rw [hconcat]
      exact joinNl_append_single _ _ hinitne
    have hTnl : nl ∉ lineAt doc tx := hnl _ (lineAt_mem doc tx (by omega) htx)
    have hHnl : nl ∉ lineAt doc hx := hnl _ (lineAt_mem doc hx hhx (by omega))
    have hlast : lastIndexOfNl (joinNl (sliceRows doc hx tx)) =
        ((joinNl (sliceRows doc hx (tx - 1))).length : Int) := by
      rw [hLdecomp]
      exact lastIndexOfNl_append _ _ hTnl
    refine ⟨?_, ?_, ?_⟩
    · rw [substr_zero_take, hcons, joinNl_cons _ _ htailne,
        List.take_append_of_le_length (by omega)]
    · unfold substrFrom
      rw [hlast, hLdecomp]
      have harr : ((joinNl (sliceRows doc hx (tx - 1))).length + ty + 1).toNat =
          (joinNl (sliceRows doc hx (tx - 1)) ++ [nl]).length + ty.toNat := by
        simp
        omega
      rw [show joinNl (sliceRows doc hx (tx - 1)) ++ nl :: lineAt doc tx =
          (joinNl (sliceRows doc hx (tx - 1)) ++ [nl]) ++ lineAt doc tx by simp]
      rw [harr, List.drop_append]
    · unfold substr
      rw [hlast, hLdecomp]
      have harr : ((joinNl (sliceRows doc hx (tx - 1))).length + ty + 1).toNat =
          (joinNl (sliceRows doc hx (tx - 1)) ++ [nl]).length + ty.toNat := by
        simp
        omega
      rw [show joinNl (sliceRows doc hx (tx - 1)) ++ nl :: lineAt doc tx =
          (joinNl (sliceRows doc hx (tx - 1)) ++ [nl]) ++ lineAt doc tx by simp]
      rw [harr, List.take_append]
      have hml : mapLast (fun l => l.take ty.toNat) (sliceRows doc hx tx) =
          sliceRows doc hx (tx - 1) ++ [(lineAt doc tx).take ty.toNat] := by
        rw [hconcat]
        exact mapLast_append_single _ _ _
      have hjoin2 : (joinNl (sliceRows doc hx (tx - 1)) ++ [nl]) ++
            (lineAt doc tx).take ty.toNat =
          joinNl (mapLast (fun l => l.take ty.toNat) (sliceRows doc hx tx)) := by
        rw [hml, joinNl_append_single _ _ hinitne]
        simp
      rw [hjoin2]
      -- now drop hy over the joined mapLast list
      have hconsml : mapLast (fun l => l.take ty.toNat) (sliceRows doc hx tx) =
          lineAt doc hx ::
            mapLast (fun l => l.take ty.toNat) (sliceRows doc (hx + 1) tx) := by
        rw [hcons]
        exact mapLast_cons _ _ _ htailne
      rw [hconsml, joinNl_cons _ _ (mapLast_ne_nil _ _ htailne),
        List.drop_append_of_le_length (by omega)]
      rw [show mapHead (fun l => l.drop hy.toNat)
          (lineAt doc hx :: mapLast (fun l => l.take ty.toNat) (sliceRows doc (hx + 1) tx)) =
          (lineAt doc hx).drop hy.toNat ::
            mapLast (fun l => l.take ty.toNat) (sliceRows doc (hx + 1) tx) from rfl]
      rw [joinNl_cons _ _ (mapLast_ne_nil _ _ htailne)]


theorem fulfill_spec (doc : Doc) (sels : List Selection) (c : List Nat) (dir : Direction)
    (hx hy tx ty : Int)
    (hor : hx < tx ∨ (hx = tx ∧ hy ≤ ty))
    (hnl : ∀ l ∈ doc, nl ∉ l)
    (hbs : lastChar c ≠ backspaceKey) (hdel : lastChar c ≠ deleteKey)
    (hhx : 0 ≤ hx) (htx : (tx : Int) < doc.length)
    (hhy : 0 ≤ hy) (hhyl : hy ≤ ((lineAt doc hx).length : Int))
    (hty : 0 ≤ ty) (htyl : ty ≤ ((lineAt doc tx).length : Int)) :
    fulfill ⟨doc, sels⟩ ⟨⟨⟨hx, hy⟩, ⟨tx, ty⟩⟩, c, dir⟩ =
      (⟨doc.take hx.toNat ++
          mapHead (fun l => (lineAt doc hx).take hy.toNat ++ l)
            (mapLast (fun l => l ++ (lineAt doc tx).drop ty.toNat) (splitLines c)) ++
          doc.drop (tx + 1).toNat,
        sels.map (fun e =>
          (e.pullBy ⟨⟨hx, hy⟩, ⟨tx, ty⟩⟩).pushBy (spanFrom ⟨hx, hy⟩ c))⟩,
       ⟨spanFrom ⟨hx, hy⟩ c,
        joinNl (mapHead (fun l => l.drop hy.toNat)
          (mapLast (fun l => l.take ty.toNat) (sliceRows doc hx tx))),
        dir.flip⟩) := by
  have horP : Selection.IsOrientedP ⟨⟨hx, hy⟩, ⟨tx, ty⟩⟩ := by
    unfold Selection.IsOrientedP
    simpa using hor
  have haccount : Transaction.accountingForSpecialCharacters
      ⟨⟨⟨hx, hy⟩, ⟨tx, ty⟩⟩, c, dir⟩ doc = ⟨⟨⟨hx, hy⟩, ⟨tx, ty⟩⟩, c, dir⟩ := by
    unfold Transaction.accountingForSpecialCharacters
    rw [if_neg hbs, if_neg hdel]
  obtain ⟨e1, e2, e3⟩ :=
    fulfill_content_eqs doc hx hy tx ty hor hnl hhx htx hhy hhyl hty htyl
  have hHnl : nl ∉ lineAt doc hx := hnl _ (lineAt_mem doc hx hhx (by
    rcases hor with h | ⟨h, _⟩
    · omega
    · omega))
  have hTnl : nl ∉ lineAt doc tx := hnl _ (lineAt_mem doc tx (by
    rcases hor with h | ⟨h, _⟩
    · omega
    · omega) htx)
  have hAnl : nl ∉ (lineAt doc hx).take hy.toNat :=
    fun hmem => hHnl (List.mem_of_mem_take hmem)
  have hBnl : nl ∉ (lineAt doc tx).drop ty.toNat :=
    fun hmem => hTnl (List.mem_of_mem_drop hmem)
  unfold fulfill
  dsimp only
  rw [haccount]
  dsimp only
  rw [Selection.oriented_of_isOriented _ horP]
  dsimp only
  rw [content_maximized doc hx hy tx ty hor hhx htx]
  rw [e1, e2, e3]
  rw [splitLines_wrap _ _ _ hAnl hBnl]
  rw [startingFrom_ofContent c ⟨hx, hy⟩ hhx hhy]


theorem length_mapHead (f : List Nat → List Nat) (ls : List (List Nat)) :
    (mapHead f ls).length = ls.length := by
  cases ls <;> rfl

theorem length_mapLast (f : List Nat → List Nat) (ls : List (List Nat)) :
    (mapLast f ls).length = ls.length := by
  induction ls with
  | nil => rfl
  | cons l ls ih =>
    cases ls with
    | nil => rfl
    | cons m ms =>
      rw [mapLast_cons _ _ _ (by simp), List.length_cons, List.length_cons, ih]

theorem headD_mapHead (f : List Nat → List Nat) (ls : List (List Nat))
    (d d' : List Nat) (h : ls ≠ []) : (mapHead f ls).headD d = f (ls.headD d') := by
  cases ls with
  | nil => exact absurd rfl h
  | cons l ls => rfl

theorem getLastD_mapLast (f : List Nat → List Nat) (ls : List (List Nat)) :
    ∀ (d d' : List Nat), ls ≠ [] → (mapLast f ls).getLastD d = f (ls.getLastD d') := by
  induction ls with
  | nil => intro d d' h; exact absurd rfl h
  | cons l ls ih =>
    intro d d' h
    cases ls with
    | nil => rfl
    | cons m ms =>
      rw [mapLast_cons _ _ _ (by simp), List.getLastD_cons, List.getLastD_cons]
      exact ih l m (by simp)

theorem headD_append (P Q : List (List Nat)) (d : List Nat) (h : P ≠ []) :
    (P ++ Q).headD d = P.headD d := by
  cases P with
  | nil => exact absurd rfl h
  | cons p ps => rfl

theorem getD_last_eq_getLastD (ls : List (List Nat)) (d : List Nat) :
    ∀ k, ls ≠ [] → k + 1 = ls.length → ls.getD k d = ls.getLastD d := by
  induction ls with
  | nil => intro k h; exact absurd rfl h
  | cons l ls ih =>
    intro k h hk
    cases ls with
    | nil =>
      simp at hk
      subst hk
      rfl
    | cons m ms =>
      cases k with
      | zero => simp at hk
      | succ k =>
        rw [List.getLastD_cons]
        rw [show (l :: m :: ms).getD (k + 1) d = (m :: ms).getD k d from rfl]
        rw [ih k (by simp) (by simpa using hk)]
        exact getLastD_indep (m :: ms) d l (by simp)

theorem lineAt_append_right (P Q : Doc) (k : Int) (h0 : 0 ≤ k) :
    lineAt (P ++ Q) ((P.length : Int) + k) = lineAt Q k := by
  unfold lineAt
  rw [if_neg (by omega), if_neg (by omega)]
  rw [List.getD_append_right _ _ _ _ (by omega)]
  congr 1
  omega

theorem lastChar_mem (u : List Nat) (h : u ≠ []) : lastChar u ∈ u := by
  induction u with
  | nil => exact absurd rfl h
  | cons a as ih =>
    cases as with
    | nil => simp [lastChar]
    | cons b bs =>
      unfold lastChar at *
      rw [List.getLastD_cons]
      rw [getLastD_indep (b :: bs) a 0 (by simp)]
      exact List.mem_cons_of_mem a (ih (by simp))

theorem lastChar_ne_of (u : List Nat) (k : Nat) (hk : k ≠ 0)
    (h : ∀ x ∈ u, x ≠ k) : lastChar u ≠ k := by
  cases hu : u with
  | nil => simpa [lastChar] using Ne.symm hk
  | cons a as =>
    subst hu
    exact h _ (lastChar_mem _ (by simp))

theorem splice_restore (doc : Doc) (hx tx : Int) (h0 : 0 ≤ hx) (hab : hx ≤ tx)
    (htx : (tx : Int) < doc.length) :
    doc.take hx.toNat ++ sliceRows doc hx tx ++ doc.drop (tx + 1).toNat = doc := by
  unfold sliceRows
  have h1 : doc.drop (tx + 1).toNat =
      (doc.drop hx.toNat).drop (tx - hx + 1).toNat := by
    rw [List.drop_drop]
    congr 1
    omega
  rw [h1, List.append_assoc, List.take_append_drop, List.take_append_drop]


theorem getD_zero_headD (ls : List (List Nat)) (d : List Nat) :
    ls.getD 0 d = ls.headD d := by
  cases ls <;> rfl

theorem getLastD_mapHead (f : List Nat → List Nat) (ls : List (List Nat))
    (d : List Nat) (h : 2 ≤ ls.length) :
    (mapHead f ls).getLastD d = ls.getLastD d := by
  cases ls with
  | nil => simp at h
  | cons l ls =>
    cases ls with
    | nil => simp at h
    | cons m ms =>
      rw [mapHead_cons]
      calc (f l :: m :: ms).getLastD d = (m :: ms).getLastD (f l) :=
            List.getLastD_cons _ _ _
        _ = (m :: ms).getLastD l := getLastD_indep _ _ _ (by simp)
        _ = (l :: m :: ms).getLastD d := (List.getLastD_cons _ _ _).symm

theorem mapHead_forall {Q : List Nat → Prop} (f : List Nat → List Nat)
    (hf : ∀ l, Q l → Q (f l)) (ls : List (List Nat)) (h : ∀ l ∈ ls, Q l) :
    ∀ l ∈ mapHead f ls, Q l := by
  cases ls with
  | nil => simp [mapHead]
  | cons l ls =>
    intro x hx
    rcases List.mem_cons.mp hx with rfl | hx
    · exact hf l (h l (by simp))
    · exact h x (List.mem_cons_of_mem l hx)

theorem mapLast_forall {Q : List Nat → Prop} (f : List Nat → List Nat)
    (hf : ∀ l, Q l → Q (f l)) (ls : List (List Nat)) (h : ∀ l ∈ ls, Q l) :
    ∀ l ∈ mapLast f ls, Q l := by
  induction ls with
  | nil => simp [mapLast]
  | cons l ls ih =>
    cases ls with
    | nil =>
      intro x hx
      rcases List.mem_cons.mp hx with rfl | hx
      · exact hf l (h l (by simp))
      · simp at hx
    | cons m ms =>
      rw [mapLast_cons _ _ _ (by simp)]
      intro x hx
      rcases List.mem_cons.mp hx with rfl | hx
      · exact h x (by simp)
      · exact ih (fun y hy => h y (List.mem_cons_of_mem l hy)) x hx


theorem wrap_restore (doc : Doc) (hx hy tx ty : Int)
    (hor : hx < tx ∨ (hx = tx ∧ hy ≤ ty))
    (hhx : 0 ≤ hx) (htx : (tx : Int) < doc.length)
    (hhy : 0 ≤ hy) (hhyl : hy ≤ ((lineAt doc hx).length : Int))
    (hty : 0 ≤ ty) (htyl : ty ≤ ((lineAt doc tx).length : Int)) :
    mapHead (fun l => (lineAt doc hx).take hy.toNat ++ l)
      (mapLast (fun l => l ++ (lineAt doc tx).drop ty.toNat)
        (mapHead (fun l => l.drop hy.toNat)
          (mapLast (fun l => l.take ty.toNat) (sliceRows doc hx tx)))) =
      sliceRows doc hx tx := by
  by_cases hab : hx = tx
  · subst hab
    have hyt : hy ≤ ty := by
      rcases hor with h | ⟨_, h⟩
      · omega
      · exact h
    rw [sliceRows_single doc hx hhx (by omega)]
    show [(lineAt doc hx).take hy.toNat ++
        (((lineAt doc hx).take ty.toNat).drop hy.toNat ++ (lineAt doc hx).drop ty.toNat)] =
      [lineAt doc hx]
    congr 1
    have h1 : (lineAt doc hx).take hy.toNat = ((lineAt doc hx).take ty.toNat).take hy.toNat := by
      rw [List.take_take]
      congr 1
      omega
    rw [h1, ← List.append_assoc, List.take_append_drop, List.take_append_drop]
  · have hab' : hx < tx := by
      rcases hor with h | ⟨h, _⟩
      · exact h
      · exact absurd h hab
    have hcons : sliceRows doc hx tx = lineAt doc hx :: sliceRows doc (hx + 1) tx :=
      sliceRows_cons doc hx tx hhx (by omega) (by omega)
    have htailconcat : sliceRows doc (hx + 1) tx =
        sliceRows doc (hx + 1) (tx - 1) ++ [lineAt doc tx] :=
      sliceRows_concat doc (tx - (hx + 1)).toNat (hx + 1) tx rfl (by omega) (by omega) htx
    rw [hcons, htailconcat]
    rw [show lineAt doc hx :: (sliceRows doc (hx + 1) (tx - 1) ++ [lineAt doc tx]) =
        (lineAt doc hx :: sliceRows doc (hx + 1) (tx - 1)) ++ [lineAt doc tx] from rfl]
    rw [mapLast_append_single]
    rw [show (lineAt doc hx :: sliceRows doc (hx + 1) (tx - 1)) ++
        [(lineAt doc tx).take ty.toNat] =
        lineAt doc hx :: (sliceRows doc (hx + 1) (tx - 1) ++
          [(lineAt doc tx).take ty.toNat]) from rfl]
    rw [mapHead_cons]
    rw [show (lineAt doc hx).drop hy.toNat ::
        (sliceRows doc (hx + 1) (tx - 1) ++ [(lineAt doc tx).take ty.toNat]) =
        ((lineAt doc hx).drop hy.toNat :: sliceRows doc (hx + 1) (tx - 1)) ++
          [(lineAt doc tx).take ty.toNat] from rfl]
    rw [mapLast_append_single]
    rw [show ((lineAt doc hx).drop hy.toNat :: sliceRows doc (hx + 1) (tx - 1)) ++
        [(lineAt doc tx).take ty.toNat ++ (lineAt doc tx).drop ty.toNat] =
        (lineAt doc hx).drop hy.toNat :: (sliceRows doc (hx + 1) (tx - 1) ++
          [(lineAt doc tx).take ty.toNat ++ (lineAt doc tx).drop ty.toNat]) from rfl]
    rw [mapHead_cons]
    rw [List.take_append_drop, List.take_append_drop, List.cons_append]


theorem removed_span_eq (doc : Doc) (hx hy tx ty : Int)
    (hor : hx < tx ∨ (hx = tx ∧ hy ≤ ty))
    (hnl : ∀ l ∈ doc, nl ∉ l)
    (hhx : 0 ≤ hx) (htx : (tx : Int) < doc.length)
    (hhy : 0 ≤ hy) (hhyl : hy ≤ ((lineAt doc hx).length : Int))
    (hty : 0 ≤ ty) (htyl : ty ≤ ((lineAt doc tx).length : Int)) :
    spanFrom ⟨hx, hy⟩ (joinNl (mapHead (fun l => l.drop hy.toNat)
        (mapLast (fun l => l.take ty.toNat) (sliceRows doc hx tx)))) =
      ⟨⟨hx, hy⟩, ⟨tx, ty⟩⟩ := by
  have hslen : (sliceRows doc hx tx).length = (tx - hx + 1).toNat :=
    sliceRows_length doc hx tx hhx htx
  have hslne : sliceRows doc hx tx ≠ [] := by
    intro hcon
    rw [hcon] at hslen
    simp at hslen
    omega
  have hsl_sub : ∀ l ∈ sliceRows doc hx tx, l ∈ doc := sliceRows_subset doc hx tx
  have hrml_ne : mapHead (fun l => l.drop hy.toNat)
      (mapLast (fun l => l.take ty.toNat) (sliceRows doc hx tx)) ≠ [] :=
    mapHead_ne_nil _ _ (mapLast_ne_nil _ _ hslne)
  have hrml_noNl : ∀ l ∈ mapHead (fun l => l.drop hy.toNat)
      (mapLast (fun l => l.take ty.toNat) (sliceRows doc hx tx)), nl ∉ l :=
    mapHead_forall _ (fun l h hm => h (List.mem_of_mem_drop hm)) _
      (mapLast_forall _ (fun l h hm => h (List.mem_of_mem_take hm)) _
        (fun l hl => hnl l (hsl_sub l hl)))
  have hcnt : countNl (joinNl (mapHead (fun l => l.drop hy.toNat)
      (mapLast (fun l => l.take ty.toNat) (sliceRows doc hx tx)))) = (tx - hx).toNat := by
    rw [countNl_joinNl _ hrml_ne hrml_noNl, length_mapHead, length_mapLast, hslen]
    omega
  unfold spanFrom
  simp only [Selection.mk.injEq, Pos.mk.injEq]
  refine ⟨trivial, ?_, ?_⟩
  · rw [hcnt]
    push_cast
    omega
  · by_cases hab : hx = tx
    · subst hab
      have hyt : hy ≤ ty := by
        rcases hor with h | ⟨_, h⟩
        · omega
        · exact h
      have hsl1 : sliceRows doc hx hx = [lineAt doc hx] :=
        sliceRows_single doc hx hhx (by omega)
      rw [hsl1] at hcnt ⊢
      rw [show joinNl (mapHead (fun l => l.drop hy.toNat)
          (mapLast (fun l => l.take ty.toNat) [lineAt doc hx])) =
          ((lineAt doc hx).take ty.toNat).drop hy.toNat from rfl] at hcnt ⊢
      rw [if_pos (by omega : countNl (((lineAt doc hx).take ty.toNat).drop hy.toNat) = 0)]
      rw [List.length_drop, List.length_take]
      push_cast
      omega
    · have hab' : hx < tx := by
        rcases hor with h | ⟨h, _⟩
        · exact h
        · exact absurd h hab
      rw [if_neg (by omega : ¬(countNl (joinNl (mapHead (fun l => l.drop hy.toNat)
          (mapLast (fun l => l.take ty.toNat) (sliceRows doc hx tx)))) = 0))]
      rw [splitLines_joinNl _ hrml_ne hrml_noNl]
      have hconcat : sliceRows doc hx tx = sliceRows doc hx (tx - 1) ++ [lineAt doc tx] :=
        sliceRows_concat doc (tx - hx).toNat hx tx rfl hhx (by omega) htx
      have hlastr : (mapHead (fun l => l.drop hy.toNat)
          (mapLast (fun l => l.take ty.toNat) (sliceRows doc hx tx))).getLastD [] =
          (lineAt doc tx).take ty.toNat := by
        rw [getLastD_mapHead _ _ _ (by rw [length_mapLast, hslen]; omega)]
        rw [getLastD_mapLast _ _ [] [] hslne, hconcat, List.getLastD_concat]
      rw [hlastr, List.length_take]
      push_cast
      omega


theorem lineAt_splice_head (P mid R : Doc) (r : Int) (hr : r = (P.length : Int))
    (hlen : 1 ≤ mid.length) :
    lineAt (P ++ mid ++ R) r = mid.headD [] := by
  subst hr
  rw [List.append_assoc]
  rw [show ((P.length : Int)) = ((P.length : Int) + 0) by omega]
  rw [lineAt_append_right P (mid ++ R) 0 le_rfl]
  unfold lineAt
  rw [if_neg (by omega)]
  rw [show (0 : Int).toNat = 0 from rfl]
  rw [List.getD_append _ _ _ _ (by omega)]
  exact getD_zero_headD _ _

theorem lineAt_splice_last (P mid R : Doc) (r : Int) (n : Nat)
    (hr : r = (P.length : Int) + (n : Int)) (hlen : mid.length = n + 1) :
    lineAt (P ++ mid ++ R) r = mid.getLastD [] := by
  subst hr
  rw [List.append_assoc]
  rw [lineAt_append_right P (mid ++ R) (n : Int) (by omega)]
  unfold lineAt
  rw [if_neg (by omega)]
  rw [Int.toNat_natCast]
  rw [List.getD_append _ _ _ _ (by omega)]
  exact getD_last_eq_getLastD _ [] n
    (by intro h; rw [h] at hlen; simp at hlen) (by omega)

theorem round_trip_core (doc : Doc) (sels : List Selection) (c : List Nat) (dir : Direction)
    (hx hy tx ty : Int)
    (hor : hx < tx ∨ (hx = tx ∧ hy ≤ ty))
    (hdoc : DocOk doc)
    (hbs : lastChar c ≠ backspaceKey) (hdel : lastChar c ≠ deleteKey)
    (hhx : 0 ≤ hx) (htx : (tx : Int) < doc.length)
    (hhy : 0 ≤ hy) (hhyl : hy ≤ ((lineAt doc hx).length : Int))
    (hty : 0 ≤ ty) (htyl : ty ≤ ((lineAt doc tx).length : Int)) :
    (fulfill (fulfill ⟨doc, sels⟩ ⟨⟨⟨hx, hy⟩, ⟨tx, ty⟩⟩, c, dir⟩).1
        (fulfill ⟨doc, sels⟩ ⟨⟨⟨hx, hy⟩, ⟨tx, ty⟩⟩, c, dir⟩).2).1 =
      ⟨doc, sels.map (fun e =>
        ((((e.pullBy ⟨⟨hx, hy⟩, ⟨tx, ty⟩⟩).pushBy (spanFrom ⟨hx, hy⟩ c)).pullBy
            (spanFrom ⟨hx, hy⟩ c)).pushBy ⟨⟨hx, hy⟩, ⟨tx, ty⟩⟩))⟩ := by
  have hnl : ∀ l ∈ doc, nl ∉ l := fun l hl => (hdoc l hl).1
  have hHnl : nl ∉ lineAt doc hx :=
    hnl _ (lineAt_mem doc hx hhx (by rcases hor with h | ⟨h, _⟩ <;> omega))
  have hTnl : nl ∉ lineAt doc tx :=
    hnl _ (lineAt_mem doc tx (by rcases hor with h | ⟨h, _⟩ <;> omega) htx)
  have hAnl : nl ∉ (lineAt doc hx).take hy.toNat :=
    fun hm => hHnl (List.mem_of_mem_take hm)
  have hBnl : nl ∉ (lineAt doc tx).drop ty.toNat :=
    fun hm => hTnl (List.mem_of_mem_drop hm)
  have hslen : (sliceRows doc hx tx).length = (tx - hx + 1).toNat :=
    sliceRows_length doc hx tx hhx htx
  have hslne : sliceRows doc hx tx ≠ [] := by
    intro hcon
    rw [hcon] at hslen
    simp at hslen
    omega
  have hsl_sub : ∀ l ∈ sliceRows doc hx tx, l ∈ doc := sliceRows_subset doc hx tx
  have hrml_ne : mapHead (fun l => l.drop hy.toNat)
      (mapLast (fun l => l.take ty.toNat) (sliceRows doc hx tx)) ≠ [] :=
    mapHead_ne_nil _ _ (mapLast_ne_nil _ _ hslne)
  have hrml_noNl : ∀ l ∈ mapHead (fun l => l.drop hy.toNat)
      (mapLast (fun l => l.take ty.toNat) (sliceRows doc hx tx)), nl ∉ l :=
    mapHead_forall _ (fun l h hm => h (List.mem_of_mem_drop hm)) _
      (mapLast_forall _ (fun l h hm => h (List.mem_of_mem_take hm)) _
        (fun l hl => hnl l (hsl_sub l hl)))
  have hrml_chars : ∀ l ∈ mapHead (fun l => l.drop hy.toNat)
      (mapLast (fun l => l.take ty.toNat) (sliceRows doc hx tx)),
      ∀ x ∈ l, ∃ l2 ∈ doc, x ∈ l2 :=
    mapHead_forall _ (fun l h x hm => h x (List.mem_of_mem_drop hm)) _
      (mapLast_forall _ (fun l h x hm => h x (List.mem_of_mem_take hm)) _
        (fun l hl => fun x hxm2 => ⟨l, hsl_sub l hl, hxm2⟩))
  have hrc_chars : ∀ x ∈ joinNl (mapHead (fun l => l.drop hy.toNat)
      (mapLast (fun l => l.take ty.toNat) (sliceRows doc hx tx))),
      x = nl ∨ ∃ l ∈ doc, x ∈ l := by
    intro x hxm
    rcases mem_joinNl _ x hxm with h | ⟨l, hl, hxl⟩
    · exact Or.inl h
    · exact Or.inr (hrml_chars l hl x hxl)
  have hbs2 : lastChar (joinNl (mapHead (fun l => l.drop hy.toNat)
      (mapLast (fun l => l.take ty.toNat) (sliceRows doc hx tx)))) ≠ backspaceKey := by
    apply lastChar_ne_of _ _ (by decide)
    intro x hxm
    rcases hrc_chars x hxm with rfl | ⟨l, hl, hxl⟩
    · decide
    · intro heq
      exact (hdoc l hl).2.1 (heq ▸ hxl)
  have hdel2 : lastChar (joinNl (mapHead (fun l => l.drop hy.toNat)
      (mapLast (fun l => l.take ty.toNat) (sliceRows doc hx tx)))) ≠ deleteKey := by
    apply lastChar_ne_of _ _ (by decide)
    intro x hxm
    rcases hrc_chars x hxm with rfl | ⟨l, hl, hxl⟩
    · decide
    · intro heq
      exact (hdoc l hl).2.2 (heq ▸ hxl)
  have hsplit_rc : splitLines (joinNl (mapHead (fun l => l.drop hy.toNat)
      (mapLast (fun l => l.take ty.toNat) (sliceRows doc hx tx)))) =
      mapHead (fun l => l.drop hy.toNat)
        (mapLast (fun l => l.take ty.toNat) (sliceRows doc hx tx)) :=
    splitLines_joinNl _ hrml_ne hrml_noNl
  -- facts about the inserted block
  have hmid_ne : mapHead (fun l => (lineAt doc hx).take hy.toNat ++ l)
      (mapLast (fun l => l ++ (lineAt doc tx).drop ty.toNat) (splitLines c)) ≠ [] :=
    mapHead_ne_nil _ _ (mapLast_ne_nil _ _ (splitLines_ne_nil c))
  have hmid_len : (mapHead (fun l => (lineAt doc hx).take hy.toNat ++ l)
      (mapLast (fun l => l ++ (lineAt doc tx).drop ty.toNat) (splitLines c))).length =
      countNl c + 1 := by
    rw [length_mapHead, length_mapLast, length_splitLines]
  have hAlen : ((lineAt doc hx).take hy.toNat).length = hy.toNat := by
    rw [List.length_take]
    omega
  have hPlen : (doc.take hx.toNat).length = hx.toNat := by
    rw [List.length_take]
    omega
  have hheadmid : (mapHead (fun l => (lineAt doc hx).take hy.toNat ++ l)
      (mapLast (fun l => l ++ (lineAt doc tx).drop ty.toNat) (splitLines c))).headD [] =
      (lineAt doc hx).take hy.toNat ++
        ((mapLast (fun l => l ++ (lineAt doc tx).drop ty.toNat) (splitLines c)).headD []) :=
    headD_mapHead _ _ [] [] (mapLast_ne_nil _ _ (splitLines_ne_nil c))
  have hlastmid : (mapHead (fun l => (lineAt doc hx).take hy.toNat ++ l)
      (mapLast (fun l => l ++ (lineAt doc tx).drop ty.toNat) (splitLines c))).getLastD [] =
      (if countNl c = 0 then
        (lineAt doc hx).take hy.toNat ++ (c ++ (lineAt doc tx).drop ty.toNat)
       else ((splitLines c).getLastD []) ++ (lineAt doc tx).drop ty.toNat) := by
    by_cases hrho : countNl c = 0
    · rw [if_pos hrho, splitLines_of_noNl c (List.count_eq_zero.mp hrho)]
      rfl
    · rw [if_neg hrho]
      rw [getLastD_mapHead _ _ _ (by rw [length_mapLast, length_splitLines]; omega)]
      exact getLastD_mapLast _ _ [] [] (splitLines_ne_nil c)
  have hline_hx : lineAt (doc.take hx.toNat ++
      mapHead (fun l => (lineAt doc hx).take hy.toNat ++ l)
        (mapLast (fun l => l ++ (lineAt doc tx).drop ty.toNat) (splitLines c)) ++
      doc.drop (tx + 1).toNat) hx =
      (mapHead (fun l => (lineAt doc hx).take hy.toNat ++ l)
        (mapLast (fun l => l ++ (lineAt doc tx).drop ty.toNat) (splitLines c))).headD [] :=
    lineAt_splice_head _ _ _ hx (by rw [hPlen]; omega) (by rw [hmid_len]; omega)
  have hline_ex : lineAt (doc.take hx.toNat ++
      mapHead (fun l => (lineAt doc hx).take hy.toNat ++ l)
        (mapLast (fun l => l ++ (lineAt doc tx).drop ty.toNat) (splitLines c)) ++
      doc.drop (tx + 1).toNat) (hx + (countNl c : Int)) =
      (mapHead (fun l => (lineAt doc hx).take hy.toNat ++ l)
        (mapLast (fun l => l ++ (lineAt doc tx).drop ty.toNat) (splitLines c))).getLastD [] :=
    lineAt_splice_last _ _ _ (hx + (countNl c : Int)) (countNl c)
      (by rw [hPlen]; omega) hmid_len
  have hhyl2 : hy ≤ ((lineAt (doc.take hx.toNat ++
      mapHead (fun l => (lineAt doc hx).take hy.toNat ++ l)
        (mapLast (fun l => l ++ (lineAt doc tx).drop ty.toNat) (splitLines c)) ++
      doc.drop (tx + 1).toNat) hx).length : Int) := by
    rw [hline_hx, hheadmid, List.length_append, hAlen]
    push_cast
    omega
  have hEY0 : 0 ≤ (if countNl c = 0 then hy + (c.length : Int)
      else (((splitLines c).getLastD []).length : Int)) := by
    split_ifs
    · omega
    · omega
  have htyl2 : (if countNl c = 0 then hy + (c.length : Int)
      else (((splitLines c).getLastD []).length : Int)) ≤
      ((lineAt (doc.take hx.toNat ++
        mapHead (fun l => (lineAt doc hx).take hy.toNat ++ l)
          (mapLast (fun l => l ++ (lineAt doc tx).drop ty.toNat) (splitLines c)) ++
        doc.drop (tx + 1).toNat) (hx + (countNl c : Int))).length : Int) := by
    rw [hline_ex, hlastmid]
    by_cases hrho : countNl c = 0
    · rw [if_pos hrho, if_pos hrho, List.length_append, List.length_append, hAlen]
      push_cast
      omega
    · rw [if_neg hrho, if_neg hrho, List.length_append]
      push_cast
      omega
  have hA2 : ((mapHead (fun l => (lineAt doc hx).take hy.toNat ++ l)
      (mapLast (fun l => l ++ (lineAt doc tx).drop ty.toNat) (splitLines c))).headD []).take
        hy.toNat = (lineAt doc hx).take hy.toNat := by
    rw [hheadmid, List.take_append_of_le_length (by rw [hAlen]),
      List.take_of_length_le (by rw [hAlen])]
  have hB2 : ((mapHead (fun l => (lineAt doc hx).take hy.toNat ++ l)
      (mapLast (fun l => l ++ (lineAt doc tx).drop ty.toNat) (splitLines c))).getLastD []).drop
        (if countNl c = 0 then hy + (c.length : Int)
         else (((splitLines c).getLastD []).length : Int)).toNat =
      (lineAt doc tx).drop ty.toNat := by
    rw [hlastmid]
    by_cases hrho : countNl c = 0
    · rw [if_pos hrho, if_pos hrho, ← List.append_assoc]
      apply List.drop_left'
      rw [List.length_append, hAlen]
      omega
    · rw [if_neg hrho, if_neg hrho]
      apply List.drop_left'
      rw [Int.toNat_natCast]
  have hor2 : hx < hx + (countNl c : Int) ∨
      (hx = hx + (countNl c : Int) ∧
        hy ≤ (if countNl c = 0 then hy + (c.length : Int)
          else (((splitLines c).getLastD []).length : Int))) := by
    by_cases hrho : countNl c = 0
    · right
      constructor
      · omega
      · rw [if_pos hrho]
        omega
    · left
      omega
  have htx2 : hx + (countNl c : Int) < (((doc.take hx.toNat ++
      mapHead (fun l => (lineAt doc hx).take hy.toNat ++ l)
        (mapLast (fun l => l ++ (lineAt doc tx).drop ty.toNat) (splitLines c)) ++
      doc.drop (tx + 1).toNat)).length : Int) := by
    rw [List.length_append, List.length_append, hPlen, hmid_len]
    push_cast
    omega
  have hnl2 : ∀ l ∈ doc.take hx.toNat ++
      mapHead (fun l => (lineAt doc hx).take hy.toNat ++ l)
        (mapLast (fun l => l ++ (lineAt doc tx).drop ty.toNat) (splitLines c)) ++
      doc.drop (tx + 1).toNat, nl ∉ l := by
    intro l hl
    rcases List.mem_append.mp hl with hl2 | hl2
    · rcases List.mem_append.mp hl2 with hl3 | hl3
      · exact hnl l (List.mem_of_mem_take hl3)
      · exact noNl_mapHead_wrap _ hAnl _ (noNl_mapLast_wrap _ hBnl _ (noNl_splitLines c)) l hl3
    · exact hnl l (List.mem_of_mem_drop hl2)
  have htake2 : (doc.take hx.toNat ++
      mapHead (fun l => (lineAt doc hx).take hy.toNat ++ l)
        (mapLast (fun l => l ++ (lineAt doc tx).drop ty.toNat) (splitLines c)) ++
      doc.drop (tx + 1).toNat).take hx.toNat = doc.take hx.toNat := by
    rw [List.append_assoc]
    exact List.take_left' hPlen
  have hdrop2 : (doc.take hx.toNat ++
      mapHead (fun l => (lineAt doc hx).take hy.toNat ++ l)
        (mapLast (fun l => l ++ (lineAt doc tx).drop ty.toNat) (splitLines c)) ++
      doc.drop (tx + 1).toNat).drop (hx + (countNl c : Int) + 1).toNat =
      doc.drop (tx + 1).toNat := by
    apply List.drop_left'
    rw [List.length_append, hPlen, hmid_len]
    omega
  -- apply the two fulfill computations
  rw [fulfill_spec doc sels c dir hx hy tx ty hor hnl hbs hdel hhx htx hhy hhyl hty htyl]
  dsimp only
  simp only [show spanFrom ⟨hx, hy⟩ c =
    (⟨⟨hx, hy⟩, ⟨hx + (countNl c : Int),
      if countNl c = 0 then hy + (c.length : Int)
      else (((splitLines c).getLastD []).length : Int)⟩⟩ : Selection) from rfl]
  rw [fulfill_spec _ _ _ dir.flip hx hy (hx + (countNl c : Int))
    (if countNl c = 0 then hy + (c.length : Int)
     else (((splitLines c).getLastD []).length : Int))
    hor2 hnl2 hbs2 hdel2 hhx htx2 hhy hhyl2 hEY0 htyl2]
  dsimp only
  rw [htake2, hdrop2]
  simp only [hline_hx, hline_ex]
  simp only [hA2, hB2]
  rw [hsplit_rc]
  rw [wrap_restore doc hx hy tx ty hor hhx htx hhy hhyl hty htyl]
  rw [splice_restore doc hx tx hhx (by rcases hor with h | ⟨h, _⟩ <;> omega) htx]
  simp only [show spanFrom (⟨hx, hy⟩ : Pos) (joinNl (mapHead (fun l => l.drop hy.toNat)
      (mapLast (fun l => l.take ty.toNat) (sliceRows doc hx tx)))) =
      (⟨⟨hx, hy⟩, ⟨tx, ty⟩⟩ : Selection) from
    removed_span_eq doc hx hy tx ty hor hnl hhx htx hhy hhyl hty htyl]
  rw [List.map_map]
  rfl


theorem valid_oriented (doc : Doc) (s : Selection)
    (hh : ValidPos doc s.head) (ht : ValidPos doc s.tail) :
    ValidPos doc s.oriented.head ∧ ValidPos doc s.oriented.tail := by
  unfold Selection.oriented Selection.swapped
  split_ifs
  · exact ⟨hh, ht⟩
  · exact ⟨ht, hh⟩

theorem spanFrom_oriented (p : Pos) (c : List Nat) (hpy : 0 ≤ p.y) :
    (spanFrom p c).IsOrientedP := by
  unfold spanFrom Selection.IsOrientedP
  simp only
  by_cases h : countNl c = 0
  · right
    refine ⟨by omega, ?_⟩
    rw [if_pos h]
    omega
  · left
    omega

theorem spanFrom_tail_y (p : Pos) (c : List Nat) (hpy : 0 ≤ p.y) :
    0 ≤ (spanFrom p c).tail.y := by
  unfold spanFrom
  simp only
  split_ifs <;> omega

theorem fulfill_orient (st : DocState) (sel : Selection) (c : List Nat) (dir : Direction)
    (hbs : lastChar c ≠ backspaceKey) (hdel : lastChar c ≠ deleteKey) :
    fulfill st ⟨sel, c, dir⟩ = fulfill st ⟨sel.oriented, c, dir⟩ := by
  have h1 : Transaction.accountingForSpecialCharacters ⟨sel, c, dir⟩ st.lines =
      ⟨sel, c, dir⟩ := by
    unfold Transaction.accountingForSpecialCharacters
    rw [if_neg hbs, if_neg hdel]
  have h2 : Transaction.accountingForSpecialCharacters ⟨sel.oriented, c, dir⟩ st.lines =
      ⟨sel.oriented, c, dir⟩ := by
    unfold Transaction.accountingForSpecialCharacters
    rw [if_neg hbs, if_neg hdel]
  unfold fulfill
  dsimp only
  rw [h1, h2]
  dsimp only
  rw [Selection.oriented_of_isOriented sel.oriented (Selection.isOriented_oriented sel)]

/-- C1.  Round-trip law of fulfill, corrected: for a transaction whose content
carries no delete marker and whose selection endpoints are valid positions,
fulfilling the returned inverse restores the document character-for-character
and restores every pre-existing selection whose endpoints both lie outside the
removed span; the original claim's unconditional restoration of all
pre-existing selections is refuted by the companion counterexample. -/
theorem fulfill_round_trip (doc : Doc) (sels : List Selection) (tr : Transaction)
    (hdoc : DocOk doc)
    (hbs : lastChar tr.content ≠ backspaceKey) (hdel : lastChar tr.content ≠ deleteKey)
    (hvh : ValidPos doc tr.selection.head) (hvt : ValidPos doc tr.selection.tail) :
    (fulfill (fulfill ⟨doc, sels⟩ tr).1 (fulfill ⟨doc, sels⟩ tr).2).1.lines = doc ∧
    (fulfill (fulfill ⟨doc, sels⟩ tr).1 (fulfill ⟨doc, sels⟩ tr).2).1.selections.length =
      sels.length ∧
    ∀ k, k < sels.length →
      OutsideRemoved tr.selection.oriented (sels.getD k ⟨⟨0, 0⟩, ⟨0, 0⟩⟩).head →
      OutsideRemoved tr.selection.oriented (sels.getD k ⟨⟨0, 0⟩, ⟨0, 0⟩⟩).tail →
      (fulfill (fulfill ⟨doc, sels⟩ tr).1 (fulfill ⟨doc, sels⟩ tr).2).1.selections.getD k
          ⟨⟨0, 0⟩, ⟨0, 0⟩⟩ = sels.getD k ⟨⟨0, 0⟩, ⟨0, 0⟩⟩ := by
  obtain ⟨sel, c, dir⟩ := tr
  dsimp only at hbs hdel hvh hvt ⊢
  rw [fulfill_orient ⟨doc, sels⟩ sel c dir hbs hdel]
  obtain ⟨hvh2, hvt2⟩ := valid_oriented doc sel hvh hvt
  have hor0 : Selection.IsOrientedP sel.oriented := Selection.isOriented_oriented sel
  suffices key : ∀ s0 : Selection, Selection.IsOrientedP s0 → ValidPos doc s0.head →
      ValidPos doc s0.tail →
      ((fulfill (fulfill ⟨doc, sels⟩ ⟨s0, c, dir⟩).1
          (fulfill ⟨doc, sels⟩ ⟨s0, c, dir⟩).2).1.lines = doc ∧
       (fulfill (fulfill ⟨doc, sels⟩ ⟨s0, c, dir⟩).1
          (fulfill ⟨doc, sels⟩ ⟨s0, c, dir⟩).2).1.selections.length = sels.length ∧
       ∀ k, k < sels.length →
         OutsideRemoved s0 (sels.getD k ⟨⟨0, 0⟩, ⟨0, 0⟩⟩).head →
         OutsideRemoved s0 (sels.getD k ⟨⟨0, 0⟩, ⟨0, 0⟩⟩).tail →
         (fulfill (fulfill ⟨doc, sels⟩ ⟨s0, c, dir⟩).1
            (fulfill ⟨doc, sels⟩ ⟨s0, c, dir⟩).2).1.selections.getD k
             ⟨⟨0, 0⟩, ⟨0, 0⟩⟩ = sels.getD k ⟨⟨0, 0⟩, ⟨0, 0⟩⟩) by
    exact key sel.oriented hor0 hvh2 hvt2
  intro s0 hor hv1 hv2
  obtain ⟨⟨hx, hy⟩, ⟨tx, ty⟩⟩ := s0
  obtain ⟨ha1, ha2, ha3, ha4⟩ := hv1
  obtain ⟨hb1, hb2, hb3, hb4⟩ := hv2
  have horc : hx < tx ∨ (hx = tx ∧ hy ≤ ty) := by
    unfold Selection.IsOrientedP at hor
    simpa using hor
  have hrt := round_trip_core doc sels c dir hx hy tx ty horc hdoc hbs hdel
    ha1 hb2 ha3 ha4 hb3 hb4
  rw [hrt]
  refine ⟨rfl, by simp, ?_⟩
  intro k hk houth houtt
  rw [List.getD_eq_getElem _ _ hk] at houth houtt
  rw [List.getD_eq_getElem _ _ (by simpa using hk), List.getD_eq_getElem _ _ hk,
    List.getElem_map]
  simp only [Selection.pullBy, Selection.pushBy]
  rw [Selection.pull_push (spanFrom ⟨hx, hy⟩ c) (spanFrom_oriented ⟨hx, hy⟩ c ha3)
    (spanFrom_tail_y ⟨hx, hy⟩ c ha3)]
  rw [Selection.pull_push (spanFrom ⟨hx, hy⟩ c) (spanFrom_oriented ⟨hx, hy⟩ c ha3)
    (spanFrom_tail_y ⟨hx, hy⟩ c ha3)]
  rw [Selection.push_pull ⟨⟨hx, hy⟩, ⟨tx, ty⟩⟩ hor (by exact hb3) _ houth]
  rw [Selection.push_pull ⟨⟨hx, hy⟩, ⟨tx, ty⟩⟩ hor (by exact hb3) _ houtt]

/-- C1 counterexample: deleting the span ((0,1),(1,1)) from the two-line
document ab / cd and undoing via the returned inverse restores the document
but NOT the pre-existing singular selection at (0,0): Selection::pull shifts
its row to -1 and the undo's push does not bring it back, so the original
unconditional round-trip claim fails. -/
theorem fulfill_round_trip_counterexample :
    ValidPos [[97, 98], [99, 100]] ⟨0, 1⟩ ∧ ValidPos [[97, 98], [99, 100]] ⟨1, 1⟩ ∧
    lastChar ([] : List Nat) ≠ backspaceKey ∧ lastChar ([] : List Nat) ≠ deleteKey ∧
    (fulfill (fulfill ⟨[[97, 98], [99, 100]], [⟨⟨0, 0⟩, ⟨0, 0⟩⟩]⟩
          ⟨⟨⟨0, 1⟩, ⟨1, 1⟩⟩, [], Direction.forward⟩).1
        (fulfill ⟨[[97, 98], [99, 100]], [⟨⟨0, 0⟩, ⟨0, 0⟩⟩]⟩
          ⟨⟨⟨0, 1⟩, ⟨1, 1⟩⟩, [], Direction.forward⟩).2).1.lines = [[97, 98], [99, 100]] ∧
    (fulfill (fulfill ⟨[[97, 98], [99, 100]], [⟨⟨0, 0⟩, ⟨0, 0⟩⟩]⟩
          ⟨⟨⟨0, 1⟩, ⟨1, 1⟩⟩, [], Direction.forward⟩).1
        (fulfill ⟨[[97, 98], [99, 100]], [⟨⟨0, 0⟩, ⟨0, 0⟩⟩]⟩
          ⟨⟨⟨0, 1⟩, ⟨1, 1⟩⟩, [], Direction.forward⟩).2).1.selections ≠
      [⟨⟨0, 0⟩, ⟨0, 0⟩⟩] := by
  decide

/-- C1 witness: replacing the character b of the one-line document ab by x and
undoing restores the document and the pre-existing selection at (0,0), whose
endpoints lie outside the removed span. -/
theorem fulfill_round_trip_witness :
    (fulfill (fulfill ⟨[[97, 98]], [⟨⟨0, 0⟩, ⟨0, 0⟩⟩]⟩
          ⟨⟨⟨0, 1⟩, ⟨0, 2⟩⟩, [120], Direction.forward⟩).1
        (fulfill ⟨[[97, 98]], [⟨⟨0, 0⟩, ⟨0, 0⟩⟩]⟩
          ⟨⟨⟨0, 1⟩, ⟨0, 2⟩⟩, [120], Direction.forward⟩).2).1.lines = [[97, 98]] ∧
    (fulfill (fulfill ⟨[[97, 98]], [⟨⟨0, 0⟩, ⟨0, 0⟩⟩]⟩
          ⟨⟨⟨0, 1⟩, ⟨0, 2⟩⟩, [120], Direction.forward⟩).1
        (fulfill ⟨[[97, 98]], [⟨⟨0, 0⟩, ⟨0, 0⟩⟩]⟩
          ⟨⟨⟨0, 1⟩, ⟨0, 2⟩⟩, [120], Direction.forward⟩).2).1.selections.getD 0
        ⟨⟨0, 0⟩, ⟨0, 0⟩⟩ = ⟨⟨0, 0⟩, ⟨0, 0⟩⟩ :=
  ⟨(fulfill_round_trip [[97, 98]] [⟨⟨0, 0⟩, ⟨0, 0⟩⟩]
      ⟨⟨⟨0, 1⟩, ⟨0, 2⟩⟩, [120], Direction.forward⟩
      (by decide) (by decide) (by decide) (by decide) (by decide)).1,
   (fulfill_round_trip [[97, 98]] [⟨⟨0, 0⟩, ⟨0, 0⟩⟩]
      ⟨⟨⟨0, 1⟩, ⟨0, 2⟩⟩, [120], Direction.forward⟩
      (by decide) (by decide) (by decide) (by decide) (by decide)).2.2 0
     (by decide) (by decide) (by decide)⟩


/-- A row is produced by `rowsInside` exactly when it lies strictly inside
the range. -/
theorem mem_rowsInside (a : FoldR) (r : Int) :
    r ∈ rowsInside a ↔ a.start < r ∧ r < a.stop := by
  unfold rowsInside
  simp only [List.mem_map, List.mem_range]
  constructor
  · rintro ⟨k, hk, rfl⟩
    omega
  · rintro ⟨h1, h2⟩
    exact ⟨(r - a.start - 1).toNat, by omega, by omega⟩

/-- Boolean membership on integer lists agrees with list membership. -/
theorem contains_int_iff (l : List Int) (x : Int) : l.contains x = true ↔ x ∈ l := by
  simp [List.contains_iff_exists_mem_beq]

/-- startsWith is the boolean test for a list prefix relation. -/
theorem startsWith_iff (hay needle : List Nat) :
    startsWith hay needle = true ↔ ∃ v, hay = needle ++ v := by
  induction needle generalizing hay with
  | nil => simp [startsWith]
  | cons b bs ih =>
    cases hay with
    | nil => simp [startsWith]
    | cons a as =>
      simp only [startsWith, Bool.and_eq_true, beq_iff_eq, ih, List.cons_append,
        List.cons.injEq]
      constructor
      · rintro ⟨rfl, v, rfl⟩
        exact ⟨v, rfl, rfl⟩
      · rintro ⟨v, rfl, rfl⟩
        exact ⟨rfl, v, rfl⟩

/-- containsSub is the boolean test for the substring relation. -/
theorem containsSub_iff (hay needle : List Nat) :
    containsSub hay needle = true ↔ ∃ u v, hay = u ++ needle ++ v := by
  induction hay with
  | nil =>
    simp only [containsSub, startsWith_iff]
    constructor
    · rintro ⟨v, hv⟩
      exact ⟨[], v, hv⟩
    · rintro ⟨u, v, huv⟩
      rcases List.append_eq_nil.mp (List.append_eq_nil.mp huv.symm).1 with ⟨h1, h2⟩
      exact ⟨v, by simp_all⟩
  | cons c rest ih =>
    simp only [containsSub, Bool.or_eq_true, startsWith_iff, ih]
    constructor
    · rintro (⟨v, hv⟩ | ⟨u, v, huv⟩)
      · exact ⟨[], v, by simp [hv]⟩
      · exact ⟨c :: u, v, by simp [huv]⟩
    · rintro ⟨u, v, huv⟩
      cases u with
      | nil => exact Or.inl ⟨v, by simpa using huv⟩
      | cons u0 us =>
        rcases List.cons.injEq .. ▸ huv with ⟨rfl, hrest⟩
        exact Or.inr ⟨us, v, by simpa using hrest⟩

/-! ## Claim theorems -/

/-- C2.  Multi-caret insertion scenario S3: from lines ["x","y","z"] with the
two singular selections ((0,1),(0,1)) and ((2,0),(2,0)), the insert intent
with content "." produces lines ["x.","y",".z"] and selections
((0,2),(0,2)) and ((2,1),(2,1)). -/
theorem insert_multicaret_S3 :
    insert ⟨[[120], [121], [122]], [⟨⟨0, 1⟩, ⟨0, 1⟩⟩, ⟨⟨2, 0⟩, ⟨2, 0⟩⟩]⟩ [46] =
      ⟨[[120, 46], [121], [46, 122]], [⟨⟨0, 2⟩, ⟨0, 2⟩⟩, ⟨⟨2, 1⟩, ⟨2, 1⟩⟩]⟩ := by
  decide

/-- C3.  The selection-validity invariant fails on the code: on the document
["ab","cd"] with the pre-existing singular selection at (0,0), fulfilling a
transaction that deletes the valid span ((0,1),(1,1)) leaves that selection
at row −1 (Selection::pull shifts the row of every point whose row is ≥ the
span's head row, including points before the removed span), so its endpoints
are not valid positions afterwards. -/
theorem fulfill_leaves_invalid_selection :
    ValidPos [[97, 98], [99, 100]] ⟨0, 1⟩ ∧ ValidPos [[97, 98], [99, 100]] ⟨1, 1⟩ ∧
    ValidPos [[97, 98], [99, 100]] ⟨0, 0⟩ ∧
    (fulfill ⟨[[97, 98], [99, 100]], [⟨⟨0, 0⟩, ⟨0, 0⟩⟩]⟩
        ⟨⟨⟨0, 1⟩, ⟨1, 1⟩⟩, [], .forward⟩).1.selections =
      [⟨⟨-1, 0⟩, ⟨-1, 0⟩⟩] ∧
    ¬ ValidPos
      (fulfill ⟨[[97, 98], [99, 100]], [⟨⟨0, 0⟩, ⟨0, 0⟩⟩]⟩
          ⟨⟨⟨0, 1⟩, ⟨1, 1⟩⟩, [], .forward⟩).1.lines
      ⟨-1, 0⟩ := by
  decide

/-- C4 counterexample.  The claim says a trailing backspace marker moves the
head only when the selection is singular (head == tail); the code moves it
whenever the two columns are equal.  The non-singular selection
((1,1),(0,1)) has its head moved from (1,1) to (1,0). -/
theorem accounting_nonsingular_moves_head :
    ¬ (⟨⟨⟨1, 1⟩, ⟨0, 1⟩⟩, [backspaceKey], .forward⟩ : Transaction).selection.isSingular ∧
    ((⟨⟨⟨1, 1⟩, ⟨0, 1⟩⟩, [backspaceKey], .forward⟩ : Transaction).accountingForSpecialCharacters
        [[97, 98], [99, 100]]).selection.head = ⟨1, 0⟩ := by
  decide

/-- C4 amended.  When the content ends in the backspace (resp. delete)
marker, the content is cleared and the tail never moves; the head is moved
one step backward (resp. forward) exactly when head and tail have EQUAL
COLUMNS (head.y == tail.y) — not when the selection is singular. -/
theorem accounting_marker_equal_columns (doc : Doc) (t : Transaction) (marker : Nat)
    (hm : marker = backspaceKey ∨ marker = deleteKey)
    (hlast : lastChar t.content = marker) :
    (t.accountingForSpecialCharacters doc).content = [] ∧
    (t.accountingForSpecialCharacters doc).selection.tail = t.selection.tail ∧
    (t.accountingForSpecialCharacters doc).direction = t.direction ∧
    (t.accountingForSpecialCharacters doc).selection.head =
      (if t.selection.head.y = t.selection.tail.y then
        (if marker = backspaceKey then prev doc t.selection.head
         else next doc t.selection.head)
       else t.selection.head) := by
  rcases hm with rfl | rfl
  · unfold Transaction.accountingForSpecialCharacters
    rw [if_pos hlast]
    refine ⟨rfl, ?_, rfl, ?_⟩ <;> split_ifs <;> simp_all
  · unfold Transaction.accountingForSpecialCharacters
    rw [if_neg (by rw [hlast]; decide), if_pos hlast,
      if_neg (show ¬ (deleteKey = backspaceKey) by decide)]
    refine ⟨rfl, ?_, rfl, ?_⟩ <;> split_ifs <;> simp_all

/-- C4 witness: the amended theorem applied to a singular caret at (0,1) on
the document ["ab"] with a lone backspace marker. -/
theorem accounting_marker_equal_columns_witness :
    ((⟨⟨⟨0, 1⟩, ⟨0, 1⟩⟩, [backspaceKey], .forward⟩ : Transaction).accountingForSpecialCharacters
        [[97, 98]]).content = [] ∧
    ((⟨⟨⟨0, 1⟩, ⟨0, 1⟩⟩, [backspaceKey], .forward⟩ : Transaction).accountingForSpecialCharacters
        [[97, 98]]).selection.tail = ⟨0, 1⟩ ∧
    ((⟨⟨⟨0, 1⟩, ⟨0, 1⟩⟩, [backspaceKey], .forward⟩ : Transaction).accountingForSpecialCharacters
        [[97, 98]]).direction = .forward ∧
    ((⟨⟨⟨0, 1⟩, ⟨0, 1⟩⟩, [backspaceKey], .forward⟩ : Transaction).accountingForSpecialCharacters
        [[97, 98]]).selection.head =
      (if (1 : Int) = 1 then
        (if backspaceKey = backspaceKey then prev [[97, 98]] ⟨0, 1⟩
         else next [[97, 98]] ⟨0, 1⟩)
       else ⟨0, 1⟩) :=
  accounting_marker_equal_columns [[97, 98]] ⟨⟨⟨0, 1⟩, ⟨0, 1⟩⟩, [backspaceKey], .forward⟩
    backspaceKey (Or.inl rfl) (by decide)

/-- C5 counterexample.  After setRanges([[2,7)]), folding row 2 and then
inserting one row at the top of the document, the fold range's anchors are
still [2,7): no code path shifts the startRow/endRow of the ranges on an
edit, so they do not become [3,8) as the claim states. -/
theorem fold_anchors_not_shifted_on_edit :
    (applyRowInsertion (toggleFoldState (setRanges ⟨[], [], []⟩ [(2, 7)]) 2) 0 1).all.map
        (fun a => (a.start, a.stop)) = [((2 : Int), (7 : Int))] ∧
    ((2 : Int), (7 : Int)) ≠ ((3 : Int), (8 : Int)) := by
  decide

/-- C5 amended.  An edit does not move any range anchor or cached fold bit;
it only shifts the position-maintained start rows of the folded ranges
(2 ↦ 3 here).  The fold survives through the next setRanges rebuild: when
the provider supplies the recomputed range [3,8), the rebuilt range has
anchors [3,8), is folded (the maintained position 3 matches its start), and
hides exactly rows 4..7. -/
theorem fold_state_preserved_via_rebuild :
    (applyRowInsertion (toggleFoldState (setRanges ⟨[], [], []⟩ [(2, 7)]) 2) 0 1).all =
      (toggleFoldState (setRanges ⟨[], [], []⟩ [(2, 7)]) 2).all ∧
    (applyRowInsertion (toggleFoldState (setRanges ⟨[], [], []⟩ [(2, 7)]) 2) 0 1).lineStates =
      (toggleFoldState (setRanges ⟨[], [], []⟩ [(2, 7)]) 2).lineStates ∧
    (applyRowInsertion (toggleFoldState (setRanges ⟨[], [], []⟩ [(2, 7)]) 2) 0 1).foldedPositions =
      [3] ∧
    (setRanges (applyRowInsertion (toggleFoldState (setRanges ⟨[], [], []⟩ [(2, 7)]) 2) 0 1)
        [(3, 8)]).all.map (fun a => (a.start, a.stop, a.folded)) = [((3 : Int), (8 : Int), true)] ∧
    (setRanges (applyRowInsertion (toggleFoldState (setRanges ⟨[], [], []⟩ [(2, 7)]) 2) 0 1)
        [(3, 8)]).lineStates = [4, 5, 6, 7] := by
  decide

/-- C6.  The publication condition is broken in the code: rebuild compares
the fresh hash against `currentHash` but never assigns `currentHash`, so a
second rebuild over identical provider input (a single token "alpha")
publishes and notifies again — 2 notifications instead of the claimed 1 —
for every initial accumulator value `init` (the C++ local is uninitialised)
and stored value c0 with hash ≠ c0. -/
theorem rebuild_notifies_again_on_identical_input (init c0 : Int)
    (hne : getHashFromTokens init (sortBy tokenLe [⟨[97, 108, 112, 104, 97], 0⟩]) ≠ c0) :
    (rebuild [[⟨[97, 108, 112, 104, 97], 0⟩]] init
        (signalRebuild ⟨[], c0, false, 0⟩)).notifications = 1 ∧
    (rebuild [[⟨[97, 108, 112, 104, 97], 0⟩]] init
        (signalRebuild (rebuild [[⟨[97, 108, 112, 104, 97], 0⟩]] init
          (signalRebuild ⟨[], c0, false, 0⟩)))).notifications = 2 ∧
    (rebuild [[⟨[97, 108, 112, 104, 97], 0⟩]] init
        (signalRebuild (rebuild [[⟨[97, 108, 112, 104, 97], 0⟩]] init
          (signalRebuild ⟨[], c0, false, 0⟩)))).currentHash = c0 := by
  have key : ∀ st : TCState, st.dirty = true → st.currentHash = c0 →
      rebuild [[⟨[97, 108, 112, 104, 97], 0⟩]] init st =
        ⟨sortBy tokenLe [⟨[97, 108, 112, 104, 97], 0⟩], c0, false, st.notifications + 1⟩ := by
    intro st hd hc
    unfold rebuild
    rw [if_pos hd, hc]
    rw [if_pos (by simpa using hne)]
    rfl
  have h1 : rebuild [[⟨[97, 108, 112, 104, 97], 0⟩]] init
      (signalRebuild ⟨[], c0, false, 0⟩) =
      ⟨sortBy tokenLe [⟨[97, 108, 112, 104, 97], 0⟩], c0, false, 1⟩ := key _ rfl rfl
  rw [h1]
  have h2 : rebuild [[⟨[97, 108, 112, 104, 97], 0⟩]] init
      (signalRebuild ⟨sortBy tokenLe [⟨[97, 108, 112, 104, 97], 0⟩], c0, false, 1⟩) =
      ⟨sortBy tokenLe [⟨[97, 108, 112, 104, 97], 0⟩], c0, false, 2⟩ := key _ rfl rfl
  rw [h2]
  exact ⟨rfl, rfl, rfl⟩

/-- C6 witness: with init = 0 and c0 = 0 the hash of "alpha" is nonzero, and
the two identical rebuilds produce two notifications. -/
theorem rebuild_notifies_again_witness :
    (rebuild [[⟨[97, 108, 112, 104, 97], 0⟩]] 0
        (signalRebuild ⟨[], 0, false, 0⟩)).notifications = 1 ∧
    (rebuild [[⟨[97, 108, 112, 104, 97], 0⟩]] 0
        (signalRebuild (rebuild [[⟨[97, 108, 112, 104, 97], 0⟩]] 0
          (signalRebuild ⟨[], 0, false, 0⟩)))).notifications = 2 ∧
    (rebuild [[⟨[97, 108, 112, 104, 97], 0⟩]] 0
        (signalRebuild (rebuild [[⟨[97, 108, 112, 104, 97], 0⟩]] 0
          (signalRebuild ⟨[], 0, false, 0⟩)))).currentHash = 0 :=
  rebuild_notifies_again_on_identical_input 0 0 (by decide)

/-- C7 counterexample.  With the single published token "Alpha" and the
input "alpha", the input IS a case-insensitive substring of the content, yet
hasEntries returns false: Token::matches uses the case-SENSITIVE
String::contains, so the claimed equivalence fails. -/
theorem hasEntries_not_case_insensitive :
    ¬ (hasEntries [⟨[65, 108, 112, 104, 97], 0⟩] [97, 108, 112, 104, 97] = true ↔
        ∃ t ∈ [(⟨[65, 108, 112, 104, 97], 0⟩ : Token)],
          matchesSpecIgnoreCase t.content [97, 108, 112, 104, 97] = true) := by
  decide

/-- C7 amended.  hasEntries(input) is true iff some token in the list
matches, where a token matches iff the input is a CASE-SENSITIVE substring
of its content. -/
theorem hasEntries_iff_substring (tokens : List Token) (input : List Nat) :
    hasEntries tokens input = true ↔ ∃ t ∈ tokens, SubstringOf input t.content := by
  unfold hasEntries Token.matches SubstringOf
  rw [List.any_eq_true]
  refine exists_congr fun t => and_congr_right fun _ => ?_
  exact containsSub_iff t.content input

/-- C8.  Folded-line characterization: after updateFoldState (every mutator
of the holder ends with it), a row is folded iff some range of the hierarchy
whose flag is set on itself or on an ancestor contains the row strictly
inside (the start row stays visible). -/
theorem isFolded_iff_inside_folded_range (h : Holder) (r : Int) :
    (updateFoldState h).isFolded r = true ↔
      ∃ i, i < h.all.length ∧ rangeIsFolded h.all i = true ∧
        (h.all.getD i default).start < r ∧ r < (h.all.getD i default).stop := by
  unfold updateFoldState Holder.isFolded
  rw [contains_int_iff]
  simp only [List.mem_flatten, List.mem_map, List.mem_filter, List.mem_range]
  constructor
  · rintro ⟨l, ⟨i, ⟨hi, hf⟩, rfl⟩, hx⟩
    exact ⟨i, hi, hf, (mem_rowsInside _ _).mp hx⟩
  · rintro ⟨i, hi, hf, h1, h2⟩
    exact ⟨rowsInside (h.all.getD i default), ⟨i, ⟨hi, hf⟩, rfl⟩,
      (mem_rowsInside _ _).mpr ⟨h1, h2⟩⟩

/-- C9.  Per-row glyph-cache queries are total functions; on an out-of-range
row (r < 0 or r ≥ size) the line accessor yields the empty string, getToken
yields the supplied default, and getGlyphs yields the empty arrangement (at
most the trailing space). -/
theorem glyph_queries_total_out_of_range (g : GlyphArrangementArray)
    (row col dflt token : Int) (wts : Bool) (h : row < 0 ∨ g.size ≤ row) :
    g.lineString row = [] ∧ g.getToken row col dflt = dflt ∧
    g.getGlyphs row token wts = (if wts then [spaceGlyph] else []) := by
  have hcond : ¬ (0 ≤ row ∧ row < g.size) := by omega
  refine ⟨?_, ?_, ?_⟩
  · unfold GlyphArrangementArray.lineString
    rw [if_neg hcond]
  · unfold GlyphArrangementArray.getToken
    rw [if_pos hcond]
  · unfold GlyphArrangementArray.getGlyphs
    rw [if_pos hcond]

/-- C9 witness: the theorem applied to a one-line array at row −1. -/
theorem glyph_queries_total_witness :
    GlyphArrangementArray.lineString ⟨[⟨[97], [5], [1], [1, 32]⟩]⟩ (-1) = [] ∧
    GlyphArrangementArray.getToken ⟨[⟨[97], [5], [1], [1, 32]⟩]⟩ (-1) 0 7 = 7 ∧
    GlyphArrangementArray.getGlyphs ⟨[⟨[97], [5], [1], [1, 32]⟩]⟩ (-1) (-1) true =
      (if true then [spaceGlyph] else []) :=
  glyph_queries_total_out_of_range ⟨[⟨[97], [5], [1], [1, 32]⟩]⟩ (-1) 0 7 (-1) true
    (Or.inl (by decide))

/-- C10.  getCharacter returns the null character for any index with a
negative row or column, and the newline character at the end sentinel and at
a line's one-past-end column for non-negative coordinates. -/
theorem getCharacter_boundary (doc : Doc) (p : Pos) :
    ((p.x < 0 ∨ p.y < 0) → getCharacter doc p = 0) ∧
    (0 ≤ p.x → 0 ≤ p.y → (p = getEnd doc ∨ p.y = getNumColumns doc p.x) →
      getCharacter doc p = nl) := by
  constructor
  · intro h
    unfold getCharacter
    rw [if_pos h]
  · intro hx hy hor
    unfold getCharacter
    rw [if_neg (by omega), if_pos]
    rcases hor with h | h
    · exact Or.inl h
    · exact Or.inr (by simpa [getNumColumns] using h)

/-- C10 witness: a negative row yields 0; the one-past-end column of "a"
yields the newline. -/
theorem getCharacter_boundary_witness :
    getCharacter [[97]] ⟨-1, 0⟩ = 0 ∧ getCharacter [[97]] ⟨0, 1⟩ = nl :=
  ⟨(getCharacter_boundary [[97]] ⟨-1, 0⟩).1 (Or.inl (by decide)),
   (getCharacter_boundary [[97]] ⟨0, 1⟩).2 (by decide) (by decide) (Or.inr (by decide))⟩

end mcl
